import Mathlib

/-!
# Message-metadata merge engine (`pkg/memorystore/postgres_metadata.go`)

A shallow embedding of `storeMetadataByPath`, `removeSystemMetadata`,
`putMessageMetadataTx` and `putMessageMetadata`.

Modelling conventions.

* A Go `interface{}` holding decoded JSON is a `JValue`.  A Go
  `map[string]interface{}` is an association list `JObject`; the head-most
  binding of a key is the one a lookup sees, and an assignment rewrites that
  binding in place (or appends a new one).  Go maps cannot hold a key twice, so
  a list standing for a Go map has pairwise distinct keys (`KeysNodup`); the
  operations themselves are total on every list.
* Go maps are references and `storeMetadataByPath` mutates its argument in place.
  The embedding returns the mutated map; the map is returned on every exit, also
  on an error return and on a run-time panic, so that what was mutated before a
  failure stays observable.
* A failed single-value type assertion `x.(T)` is a run-time panic in Go, not an
  `error` return value: the two are kept apart (`Outcome.err`, `Outcome.panic`).
* Values are JSON trees; a map-typed `nil` (a nil `map[string]interface{}` boxed
  in an interface) is not represented, and the payload of a number is never
  inspected by the code, so numbers carry an integer.
-/

namespace Zep

/-- A decoded JSON value, the dynamic content of a Go `interface{}`. -/
inductive JValue where
  | null
  | bool (b : Bool)
  | num (n : Int)
  | str (s : String)
  | arr (xs : List JValue)
  | obj (kvs : List (String × JValue))

/-- A Go `map[string]interface{}`. -/
abbrev JObject := List (String × JValue)

/-- The keys of a map, in list order. -/
def mapKeys (m : JObject) : List String := m.map Prod.fst

/-- A list stands for a Go map when no key occurs twice. -/
def KeysNodup (m : JObject) : Prop := (mapKeys m).Nodup

/-- Go `v, ok := m[k]`: `none` is `ok == false`. -/
def mapGet : JObject → String → Option JValue
  | [], _ => none
  | (k', v') :: rest, k => if k' = k then some v' else mapGet rest k

/-- Go `m[k] = v`. -/
def mapSet : JObject → String → JValue → JObject
  | [], k, v => [(k, v)]
  | (k', v') :: rest, k, v =>
      if k' = k then (k, v) :: rest else (k', v') :: mapSet rest k v

/-- Go `delete(m, k)`. -/
def mapDelete (m : JObject) (k : String) : JObject :=
  m.filter (fun kv => decide (kv.1 ≠ k))

/-- Go `for k, v := range src { dst[k] = v }` (lines 142-144 and 155-157). -/
def assignAll (dst src : JObject) : JObject :=
  src.foldl (fun acc kv => mapSet acc kv.1 kv.2) dst

/-- How a call of `storeMetadataByPath` ends, with the state of the map it was
given: `ok` is `return nil`, `err` is the return of a non-nil `error`, `panic`
is a run-time panic that unwinds into the caller. -/
inductive Outcome where
  | ok (value : JObject)
  | err (msg : String) (value : JObject)
  | panic (value : JObject)

/-- The map as the call leaves it. -/
def Outcome.value : Outcome → JObject
  | .ok v => v
  | .err _ v => v
  | .panic v => v

/-- Rebuilds the enclosing map around the outcome of a walk inside a child. -/
def Outcome.mapValue (f : JObject → JObject) : Outcome → Outcome
  | .ok v => .ok (f v)
  | .err msg v => .err msg (f v)
  | .panic v => .panic (f v)

/-- The `for idx, key := range keyPath` loop of `storeMetadataByPath`
(lines 148-174), started at the map `value`; the path argument is what is left
of `keyPath`, so its last element is the one with `isLastKey`.

* last key, existing entry and `metadata` both maps: the entries of `metadata`
  are assigned into the existing map (lines 151-159);
* last key otherwise: `value[key] = metadata` (line 163);
* other key: a missing or nil entry is replaced by a fresh map (lines 165-169),
  and `childValue.(map[string]interface{})` (line 170) either yields the map to
  continue in or panics. -/
def storeLoop : JObject → List String → JValue → Outcome
  | value, [], _ => .ok value
  | value, [key], metadata =>
      match mapGet value key, metadata with
      | some (.obj existingMap), .obj metadataMap =>
          .ok (mapSet value key (.obj (assignAll existingMap metadataMap)))
      | _, _ => .ok (mapSet value key metadata)
  | value, key :: next :: rest, metadata =>
      match mapGet value key with
      | none =>
          (storeLoop [] (next :: rest) metadata).mapValue
            (fun child => mapSet value key (.obj child))
      | some .null =>
          (storeLoop [] (next :: rest) metadata).mapValue
            (fun child => mapSet value key (.obj child))
      | some (.obj childValue) =>
          (storeLoop childValue (next :: rest) metadata).mapValue
            (fun child => mapSet value key (.obj child))
      | some _ => .panic value

/-- The test of line 137: `length == 0 || (length == 1 && keyPath[0] == "")`. -/
def isRootPath (keyPath : List String) : Bool :=
  keyPath.length == 0 || (keyPath.length == 1 && keyPath.head? == some "")

/-- The message of the `errors.New` of line 140. -/
def errNotMap : String := "metadata must be of type map[string]interface\x7b\x7d"

/-- Go `storeMetadataByPath(value, keyPath, metadata)` (lines 131-175). -/
def storeMetadataByPath (value : JObject) (keyPath : List String)
    (metadata : JValue) : Outcome :=
  if isRootPath keyPath then
    match metadata with
    | .obj metadataMap => .ok (assignAll value metadataMap)
    | _ => .err errNotMap value
  else
    storeLoop value keyPath metadata

/-! ## Strings -/

/-- Splits a character list at every `'.'`; the result is never empty. -/
def splitDot : List Char → List (List Char)
  | [] => [[]]
  | c :: cs =>
      if c = '.' then [] :: splitDot cs
      else
        match splitDot cs with
        | [] => [[c]]
        | seg :: segs => (c :: seg) :: segs

/-- Go `strings.Split(s, ".")`: the substrings between the dots, `[""]` for the
empty string. -/
def stringsSplit (s : String) : List String :=
  (splitDot s.data).map String.mk

/-- Go `strings.HasPrefix(s, pre)`. -/
def stringsHasPrefix (s pre : String) : Bool :=
  pre.data.isPrefixOf s.data

/-! ## The batch and its filter -/

/-- Modelled from the spec: `models.MessageMetadata` (its declaration is not in
the sources at hand), the spec's MetadataWriteItem: the target message, the
dotted key path and the value to merge.  `Metadata` is a map, as the
`delete(m.Metadata, "system")` of line 67 requires. -/
structure MessageMetadata where
  UUID : String
  Key : String
  Metadata : JObject

/-- The test of line 66 on an item's key. -/
def keepsKey (key : String) : Bool :=
  key != "system" && !stringsHasPrefix key "system."

/-- Go `removeSystemMetadata(metadata)` (lines 62-72): the loop appends each
item that passes the test of line 66, after `delete(m.Metadata, "system")`. -/
def removeSystemMetadata (metadata : List MessageMetadata) : List MessageMetadata :=
  metadata.foldl
    (fun filteredMessageMetadata m =>
      if keepsKey m.Key then
        filteredMessageMetadata ++
          [{ m with Metadata := mapDelete m.Metadata "system" }]
      else filteredMessageMetadata)
    []

/-- The call of lines 103-107: the item's key is split on `"."` and the item's
map is stored into the loaded document. -/
def mergeItem (value : JObject) (m : MessageMetadata) : Outcome :=
  storeMetadataByPath value (stringsSplit m.Key) (.obj m.Metadata)

/-- The items of a batch merged one after the other into one document, as the
loop of lines 43-49 does for items of the same message: the first item that
does not return nil ends the loop. -/
def mergeItems : JObject → List MessageMetadata → Outcome
  | value, [] => .ok value
  | value, m :: rest =>
      match mergeItem value m with
      | .ok value' => mergeItems value' rest
      | failed => failed

/-! ## The store and its transaction -/

/-- Modelled from the spec: `PgMessageStore` (declared outside the sources at
hand), one message row keyed by `(sessionID, targetID)` with its metadata
column; `none` is a nil map, a row that has no metadata yet. -/
structure PgMessageStore where
  SessionID : String
  UUID : String
  Metadata : Option JObject

/-- A Go `error` value as this file produces it. -/
inductive GoError where
  | new (msg : String)
  | driver
  | noRows
  | storage (msg : String) (cause : GoError)
  deriving DecidableEq

/-- Modelled from the spec: `NewStorageError(msg, err)` (defined outside the
sources at hand) wraps the cause with a contextual description. -/
def NewStorageError (msg : String) (cause : GoError) : GoError :=
  .storage msg cause

/-- How a call on the store ends: `return nil`, the return of an error, or a
panic unwinding into the caller. -/
inductive Ret where
  | nil
  | error (e : GoError)
  | panic
  deriving DecidableEq

/-- A statement sent on the connection. -/
inductive Event where
  | begin
  | lock (key : String)
  | select (sessionID uuid : String)
  | update (sessionID uuid : String)
  | commit
  | rollback
  deriving DecidableEq

/-- An open `bun.Tx`: the rows as the transaction sees them and the statements
sent so far. -/
structure Tx where
  rows : List PgMessageStore
  log : List Event

/-- The database behind a `bun.IDB`: the committed rows, the view of the open
transaction when the handle is a `bun.Tx`, and the statements sent so far. -/
structure Store where
  committed : List PgMessageStore
  pending : Option (List PgMessageStore)
  log : List Event

/-- Which blocking calls fail in a run; the per-item ones are indexed by the
position of the item in the filtered batch. -/
structure Faults where
  beginTx : Bool
  lock : Nat → Bool
  select : Nat → Bool
  update : Nat → Bool
  commit : Bool

/-- Records a statement. -/
def Tx.logged (tx : Tx) (e : Event) : Tx :=
  { tx with log := tx.log ++ [e] }

/-- The `WHERE session_id = ? AND uuid = ?` of lines 90 and 116. -/
def rowMatches (sessionID uuid : String) (r : PgMessageStore) : Bool :=
  r.SessionID == sessionID && r.UUID == uuid

/-- The `SELECT metadata ... Scan` of lines 88-91: the first matching row, or
none (`sql.ErrNoRows`). -/
def selectRow (rows : List PgMessageStore) (sessionID uuid : String) :
    Option PgMessageStore :=
  rows.find? (rowMatches sessionID uuid)

/-- The `UPDATE ... SET metadata` of lines 113-117. -/
def updateRows (rows : List PgMessageStore) (sessionID uuid : String)
    (metadata : JObject) : List PgMessageStore :=
  rows.map (fun r =>
    if rowMatches sessionID uuid r then { r with Metadata := some metadata } else r)

/-- Go `putMessageMetadataTx(ctx, tx, sessionID, messageMetadata)`
(lines 74-123) for the item at position `i` of the batch.

Modelled from the spec: `acquireAdvisoryLock` (defined outside the sources at
hand) takes the per-target lock on the transaction's connection for the key
`sessionID + uuid`, and fails when the connection does. -/
def putMessageMetadataTx (faults : Faults) (i : Nat) (tx : Tx)
    (sessionID : String) (messageMetadata : MessageMetadata) : Ret × Tx :=
  let tx := tx.logged (.lock (sessionID ++ messageMetadata.UUID))
  if faults.lock i then
    (.error (NewStorageError "failed to acquire advisory lock" .driver), tx)
  else
    let tx := tx.logged (.select sessionID messageMetadata.UUID)
    if faults.select i then
      (.error (NewStorageError
        "failed to retrieve existing metadata. was the session deleted?" .driver), tx)
    else
      match selectRow tx.rows sessionID messageMetadata.UUID with
      | none =>
          (.error (NewStorageError
            "failed to retrieve existing metadata. was the session deleted?" .noRows), tx)
      | some msg =>
          match mergeItem (msg.Metadata.getD []) messageMetadata with
          | .err e _ =>
              (.error (NewStorageError "failed to store metadata by path" (.new e)), tx)
          | .panic _ => (.panic, tx)
          | .ok value =>
              let tx := tx.logged (.update sessionID messageMetadata.UUID)
              if faults.update i then
                (.error (NewStorageError "failed to update message metadata" .driver), tx)
              else
                (.nil,
                  { tx with rows := updateRows tx.rows sessionID messageMetadata.UUID value })

/-- The loop of lines 43-49 from position `i` on. -/
def putLoop (faults : Faults) (sessionID : String) :
    Nat → Tx → List MessageMetadata → Ret × Tx
  | _, tx, [] => (.nil, tx)
  | i, tx, m :: rest =>
      match putMessageMetadataTx faults i tx sessionID m with
      | (.nil, tx') => putLoop faults sessionID (i + 1) tx' rest
      | (.error e, tx') =>
          (.error (NewStorageError "failed to put message metadata" e), tx')
      | (.panic, tx') => (.panic, tx')

/-- Modelled from the spec: `rollbackOnError(tx)` (defined outside the sources
at hand), deferred at line 40: a transaction this call owns and has not
committed is rolled back, which discards its view; on a committed one it does
nothing. -/
def rollbackOnError (committed : List PgMessageStore) (done : Bool)
    (log : List Event) : Store :=
  if done then { committed := committed, pending := none, log := log }
  else { committed := committed, pending := none, log := log ++ [.rollback] }

/-- Lines 34-57 of `putMessageMetadata`, what the function does with the
batch once it has been filtered.  `db` is a `bun.Tx` exactly when the store has
an open transaction (`pending`). -/
def runBatch (faults : Faults) (db : Store) (sessionID : String)
    (messageMetaSet : List MessageMetadata) : Ret × Store :=
  match db.pending with
  | some rows =>
      let r := putLoop faults sessionID 0 { rows := rows, log := db.log } messageMetaSet
      (r.1, { db with pending := some r.2.rows, log := r.2.log })
  | none =>
      if faults.beginTx then
        (.error (NewStorageError "failed to begin transaction" .driver),
          { db with log := db.log ++ [.begin] })
      else
        let r := putLoop faults sessionID 0
          { rows := db.committed, log := db.log ++ [.begin] } messageMetaSet
        match r.1 with
        | .nil =>
            if faults.commit then
              (.error (NewStorageError "failed to commit transaction" .driver),
                rollbackOnError db.committed false (r.2.log ++ [.commit]))
            else
              (.nil, rollbackOnError r.2.rows true (r.2.log ++ [.commit]))
        | failed => (failed, rollbackOnError db.committed false r.2.log)

/-- Go `putMessageMetadata(ctx, db, sessionID, messageMetaSet, isPrivileged)`
(lines 19-58): the filter of lines 29-32, then the transaction. -/
def putMessageMetadata (faults : Faults) (db : Store) (sessionID : String)
    (messageMetaSet : List MessageMetadata) (isPrivileged : Bool) : Ret × Store :=
  runBatch faults db sessionID
    (if !isPrivileged then removeSystemMetadata messageMetaSet else messageMetaSet)

/-- No blocking call fails. -/
def noFaults : Faults :=
  { beginTx := false, lock := fun _ => false, select := fun _ => false,
    update := fun _ => false, commit := false }

/-- The statements one item sends: lock, select, update. -/
def Event.isItemStatement : Event → Bool
  | .lock _ => true
  | .select _ _ => true
  | .update _ _ => true
  | _ => false

/-- The Privilege Filter in the words of the spec (section 4.1): the items whose
key path neither equals `system` nor starts with `system.`, in their order,
each with the top-level `system` key stripped from its value. -/
def privilegeFilter (items : List MessageMetadata) : List MessageMetadata :=
  (items.filter
      (fun m => decide (m.Key ≠ "system" ∧ ¬ "system.".data <+: m.Key.data))).map
    (fun m => { UUID := m.UUID, Key := m.Key, Metadata := mapDelete m.Metadata "system" })

/-- A store with one message, used in the examples. -/
def exampleRows : List PgMessageStore :=
  [{ SessionID := "s", UUID := "m1", Metadata := some [("a", .num 0)] }]

/-- An item for the message of `exampleRows`. -/
def exampleFirst : MessageMetadata :=
  { UUID := "m1", Key := "tags", Metadata := [("x", .num 1)] }

/-- An item for a message that has no row in `exampleRows`. -/
def exampleMissing : MessageMetadata :=
  { UUID := "m2", Key := "tags", Metadata := [("x", .num 1)] }

/-! ## Reading a document -/

/-- The entry a key path addresses in a value: every segment but the last has
to lead into an object. -/
def getPath : JValue → List String → Option JValue
  | v, [] => some v
  | .obj m, k :: ks =>
      match mapGet m k with
      | some child => getPath child ks
      | none => none
  | _, _ :: _ => none

/-- The chain of single-key objects `k1 -> k2 -> ... -> v`. -/
def chain : List String → JValue → JValue
  | [], v => v
  | k :: ks, v => .obj [(k, chain ks v)]

/-- The value line 151-163 leave at the last key: the one-level merge when both
sides are maps, the incoming value otherwise. -/
def terminalEntry (existing : Option JValue) (metadata : JValue) : JValue :=
  match existing, metadata with
  | some (.obj existingMap), .obj metadataMap => .obj (assignAll existingMap metadataMap)
  | _, _ => metadata

/-- Replaces the object the path `pre` leads to, leaving the rest in place. -/
def putPath : JObject → List String → JObject → JObject
  | _, [], p => p
  | value, k :: ks, p =>
      match mapGet value k with
      | some (.obj child) => mapSet value k (.obj (putPath child ks p))
      | _ => value

/-- The document of a target as lines 88-101 load it: the metadata of the first
row for `(sessionID, uuid)`, the empty map when the column is nil; `none` when
the target has no row. -/
def docOf (rows : List PgMessageStore) (sessionID uuid : String) : Option JObject :=
  (selectRow rows sessionID uuid).map (fun r => r.Metadata.getD [])

/-- The items of a batch that target the message `uuid`, in input order. -/
def itemsFor (uuid : String) (items : List MessageMetadata) : List MessageMetadata :=
  items.filter (fun m => m.UUID == uuid)

/-- The statements an item sends when every step of it succeeds. -/
def itemStatements (sessionID : String) (m : MessageMetadata) : List Event :=
  [.lock (sessionID ++ m.UUID), .select sessionID m.UUID, .update sessionID m.UUID]

/-- The value a key path addresses in a document the way `storeMetadataByPath`
reads the path: the document itself for a root path. -/
def objectAt (value : JObject) (keyPath : List String) : Option JValue :=
  if isRootPath keyPath then some (.obj value) else getPath (.obj value) keyPath

/-! ## Lemmas on maps -/

theorem mapGet_mapSet_self (m : JObject) (k : String) (v : JValue) :
    mapGet (mapSet m k v) k = some v := by
  induction m with
  | nil => simp [mapSet, mapGet]
  | cons kv rest ih =>
      obtain ⟨k', v'⟩ := kv
      by_cases h : k' = k
      · simp [mapSet, mapGet, h]
      · simp [mapSet, mapGet, h, ih]

theorem mapGet_mapSet_of_ne (m : JObject) {k k' : String} (v : JValue) (h : k' ≠ k) :
    mapGet (mapSet m k v) k' = mapGet m k' := by
  induction m with
  | nil => simp [mapSet, mapGet, Ne.symm h]
  | cons kv rest ih =>
      obtain ⟨k0, v0⟩ := kv
      by_cases h0 : k0 = k
      · subst h0
        simp [mapSet, mapGet, Ne.symm h]
      · by_cases h1 : k0 = k'
        · subst h1
          simp [mapSet, mapGet, h0]
        · simp [mapSet, mapGet, h0, h1, ih]

theorem mapSet_of_mapGet (m : JObject) {k : String} {v : JValue}
    (h : mapGet m k = some v) : mapSet m k v = m := by
  induction m with
  | nil => simp [mapGet] at h
  | cons kv rest ih =>
      obtain ⟨k0, v0⟩ := kv
      by_cases h0 : k0 = k
      · subst h0
        simp [mapGet] at h
        simp [mapSet, h]
      · simp [mapGet, h0] at h
        simp [mapSet, h0, ih h]

theorem mem_mapKeys_mapSet (m : JObject) (k k' : String) (v : JValue) :
    k' ∈ mapKeys (mapSet m k v) ↔ k' = k ∨ k' ∈ mapKeys m := by
  induction m with
  | nil => simp [mapSet, mapKeys]
  | cons kv rest ih =>
      obtain ⟨k0, v0⟩ := kv
      by_cases h0 : k0 = k
      · subst h0
        simp [mapSet, mapKeys]
      · have ih' : k' ∈ List.map Prod.fst (mapSet rest k v) ↔
            k' = k ∨ k' ∈ List.map Prod.fst rest := ih
        simp only [mapSet, h0, if_false, mapKeys, List.map_cons, List.mem_cons, ih']
        tauto

theorem mapGet_eq_none_iff (m : JObject) (k : String) :
    mapGet m k = none ↔ k ∉ mapKeys m := by
  induction m with
  | nil => simp [mapGet, mapKeys]
  | cons kv rest ih =>
      obtain ⟨k0, v0⟩ := kv
      have ih' : mapGet rest k = none ↔ k ∉ List.map Prod.fst rest := ih
      by_cases h0 : k0 = k
      · simp [mapGet, mapKeys, h0]
      · simp only [mapGet, h0, if_false, mapKeys, List.map_cons, List.mem_cons, ih']
        have : ¬ k = k0 := fun h => h0 h.symm
        tauto

theorem mapGet_of_mem_nodup (m : JObject) (k : String) (v : JValue)
    (hm : KeysNodup m) (h : (k, v) ∈ m) : mapGet m k = some v := by
  induction m with
  | nil => simp at h
  | cons kv rest ih =>
      obtain ⟨k0, v0⟩ := kv
      have hnd : k0 ∉ List.map Prod.fst rest ∧ (List.map Prod.fst rest).Nodup := by
        simpa [KeysNodup, mapKeys] using hm
      rcases List.mem_cons.mp h with heq | hin
      · have h1 : k = k0 := congrArg Prod.fst heq
        have h2 : v = v0 := congrArg Prod.snd heq
        simp [mapGet, h1, h2]
      · have hk : k ∈ List.map Prod.fst rest := List.mem_map.mpr ⟨(k, v), hin, rfl⟩
        have hne : k0 ≠ k := fun e => hnd.1 (e ▸ hk)
        simp [mapGet, hne, ih hnd.2 hin]

theorem mapGet_mapDelete_self (m : JObject) (k : String) :
    mapGet (mapDelete m k) k = none := by
  rw [mapGet_eq_none_iff]
  simp [mapDelete, mapKeys, List.mem_filter]

theorem mapGet_mapDelete_of_ne (m : JObject) {k k' : String} (h : k' ≠ k) :
    mapGet (mapDelete m k) k' = mapGet m k' := by
  induction m with
  | nil => simp [mapDelete, mapGet]
  | cons kv rest ih =>
      obtain ⟨k0, v0⟩ := kv
      by_cases h0 : k0 = k
      · have h1 : k0 ≠ k' := fun e => h (e ▸ h0)
        have hd : mapDelete ((k0, v0) :: rest) k = mapDelete rest k := by
          simp [mapDelete, h0]
        rw [hd, ih]
        simp [mapGet, h1]
      · have hd : mapDelete ((k0, v0) :: rest) k = (k0, v0) :: mapDelete rest k := by
          simp [mapDelete, h0]
        rw [hd]
        by_cases h1 : k0 = k'
        · simp [mapGet, h1]
        · simp [mapGet, h1, ih]

theorem mapGet_assignAll_of_not_mem (dst src : JObject) (k : String)
    (h : k ∉ mapKeys src) : mapGet (assignAll dst src) k = mapGet dst k := by
  induction src generalizing dst with
  | nil => rfl
  | cons kv rest ih =>
      obtain ⟨k0, v0⟩ := kv
      have hk : k ≠ k0 ∧ k ∉ mapKeys rest := by
        simpa [mapKeys, not_or] using h
      have step : assignAll dst ((k0, v0) :: rest) = assignAll (mapSet dst k0 v0) rest := rfl
      rw [step, ih _ hk.2, mapGet_mapSet_of_ne _ _ hk.1]

theorem mapGet_assignAll_of_mem (dst src : JObject) (k : String)
    (hsrc : KeysNodup src) (h : k ∈ mapKeys src) :
    mapGet (assignAll dst src) k = mapGet src k := by
  induction src generalizing dst with
  | nil => simp [mapKeys] at h
  | cons kv rest ih =>
      obtain ⟨k0, v0⟩ := kv
      have hnd : k0 ∉ mapKeys rest ∧ KeysNodup rest := by
        simpa [KeysNodup, mapKeys] using hsrc
      have step : assignAll dst ((k0, v0) :: rest) = assignAll (mapSet dst k0 v0) rest := rfl
      by_cases h0 : k0 = k
      · subst h0
        rw [step, mapGet_assignAll_of_not_mem _ _ _ hnd.1, mapGet_mapSet_self]
        simp [mapGet]
      · have hk : k ∈ mapKeys rest := by
          have : k = k0 ∨ k ∈ mapKeys rest := by simpa [mapKeys] using h
          rcases this with e | hin
          · exact absurd e.symm h0
          · exact hin
        rw [step, ih _ hnd.2 hk]
        simp [mapGet, h0]

theorem mem_mapKeys_assignAll (dst src : JObject) (k : String) :
    k ∈ mapKeys (assignAll dst src) ↔ k ∈ mapKeys dst ∨ k ∈ mapKeys src := by
  induction src generalizing dst with
  | nil => simp [assignAll, mapKeys]
  | cons kv rest ih =>
      obtain ⟨k0, v0⟩ := kv
      have step : assignAll dst ((k0, v0) :: rest) = assignAll (mapSet dst k0 v0) rest := rfl
      rw [step, ih, mem_mapKeys_mapSet]
      simp only [mapKeys, List.map_cons, List.mem_cons]
      tauto

/-! ## Lemmas on the walk of `storeMetadataByPath` -/

theorem isRootPath_iff (keyPath : List String) :
    isRootPath keyPath = true ↔ keyPath = [] ∨ keyPath = [""] := by
  cases keyPath with
  | nil => simp [isRootPath]
  | cons k ks =>
      cases ks with
      | nil => simp [isRootPath]
      | cons k2 ks2 => simp [isRootPath]

theorem isRootPath_append_last (pre : List String) (last : String) :
    isRootPath (pre ++ [last]) = false ↔ pre ≠ [] ∨ last ≠ "" := by
  cases pre with
  | nil => simp [isRootPath]
  | cons k ks =>
      cases ks with
      | nil => simp [isRootPath]
      | cons k2 ks2 => simp [isRootPath]

theorem Outcome.mapValue_mapValue (f g : JObject → JObject) (o : Outcome) :
    (o.mapValue g).mapValue f = o.mapValue (fun v => f (g v)) := by
  cases o <;> rfl

theorem Outcome.mapValue_id (o : Outcome) : o.mapValue (fun v => v) = o := by
  cases o <;> rfl

theorem storeLoop_last (value : JObject) (key : String) (metadata : JValue) :
    storeLoop value [key] metadata =
      .ok (mapSet value key (terminalEntry (mapGet value key) metadata)) := by
  unfold storeLoop terminalEntry
  split <;> simp_all

theorem storeLoop_cons_obj (value child : JObject) (key : String) (rest : List String)
    (metadata : JValue) (hrest : rest ≠ [])
    (h : mapGet value key = some (.obj child)) :
    storeLoop value (key :: rest) metadata =
      (storeLoop child rest metadata).mapValue (fun c => mapSet value key (.obj c)) := by
  cases rest with
  | nil => exact absurd rfl hrest
  | cons next rest => simp [storeLoop, h]

theorem storeLoop_cons_fresh (value : JObject) (key : String) (rest : List String)
    (metadata : JValue) (hrest : rest ≠ [])
    (h : mapGet value key = none ∨ mapGet value key = some .null) :
    storeLoop value (key :: rest) metadata =
      (storeLoop [] rest metadata).mapValue (fun c => mapSet value key (.obj c)) := by
  cases rest with
  | nil => exact absurd rfl hrest
  | cons next rest => rcases h with h | h <;> simp [storeLoop, h]

theorem storeLoop_empty (k : String) (ks : List String) (metadata : JValue) :
    storeLoop [] (k :: ks) metadata = .ok [(k, chain ks metadata)] := by
  induction ks generalizing k with
  | nil => simp [storeLoop_last, mapGet, terminalEntry, mapSet, chain]
  | cons k2 ks ih =>
      rw [storeLoop_cons_fresh [] k (k2 :: ks) metadata (by simp) (Or.inl rfl), ih]
      simp [Outcome.mapValue, mapSet, chain]

theorem getPath_cons_obj {value parent : JObject} {k : String} {ks : List String}
    (h : getPath (.obj value) (k :: ks) = some (.obj parent)) :
    ∃ child, mapGet value k = some (.obj child) ∧
      getPath (.obj child) ks = some (.obj parent) := by
  unfold getPath at h
  cases hg : mapGet value k with
  | none => simp [hg] at h
  | some c =>
      simp only [hg] at h
      cases ks with
      | nil =>
          simp [getPath] at h
          exact ⟨parent, by rw [h], by simp [getPath]⟩
      | cons k2 ks2 =>
          cases c with
          | obj child => exact ⟨child, rfl, h⟩
          | null => simp [getPath] at h
          | bool b => simp [getPath] at h
          | num n => simp [getPath] at h
          | str s => simp [getPath] at h
          | arr xs => simp [getPath] at h

theorem getPath_append (v : JValue) (pre ks : List String) :
    getPath v (pre ++ ks) = (getPath v pre).bind (fun w => getPath w ks) := by
  induction pre generalizing v with
  | nil => simp [getPath]
  | cons k pre ih =>
      cases v with
      | obj m =>
          simp only [List.cons_append, getPath]
          cases mapGet m k with
          | none => rfl
          | some c => exact ih c
      | null => simp [getPath]
      | bool b => simp [getPath]
      | num n => simp [getPath]
      | str s => simp [getPath]
      | arr xs => simp [getPath]

theorem storeLoop_append (pre tail : List String) (metadata : JValue) (htail : tail ≠ []) :
    ∀ value parent : JObject, getPath (.obj value) pre = some (.obj parent) →
      storeLoop value (pre ++ tail) metadata =
        (storeLoop parent tail metadata).mapValue (putPath value pre) := by
  induction pre with
  | nil =>
      intro value parent h
      simp [getPath] at h
      subst h
      have : putPath value [] = fun p => p := by funext p; rfl
      simp [this, Outcome.mapValue_id]
  | cons k ks ih =>
      intro value parent h
      obtain ⟨child, hk, hchild⟩ := getPath_cons_obj h
      have hne : ks ++ tail ≠ [] := by simp [htail]
      rw [List.cons_append, storeLoop_cons_obj value child k (ks ++ tail) metadata hne hk,
        ih child parent hchild, Outcome.mapValue_mapValue]
      congr 1
      funext p
      simp [putPath, hk]

theorem getPath_putPath (pre : List String) (p : JObject) :
    ∀ value parent : JObject, getPath (.obj value) pre = some (.obj parent) →
      getPath (.obj (putPath value pre p)) pre = some (.obj p) := by
  induction pre with
  | nil => intro value parent _; simp [getPath, putPath]
  | cons k ks ih =>
      intro value parent h
      obtain ⟨child, hk, hchild⟩ := getPath_cons_obj h
      simp only [putPath, hk, getPath, mapGet_mapSet_self]
      exact ih child parent hchild

theorem mapSet_mapSet (m : JObject) (k : String) (a b : JValue) :
    mapSet (mapSet m k a) k b = mapSet m k b := by
  induction m with
  | nil => simp [mapSet]
  | cons kv rest ih =>
      obtain ⟨k0, v0⟩ := kv
      by_cases h0 : k0 = k
      · simp [mapSet, h0]
      · simp [mapSet, h0, ih]

theorem putPath_putPath (pre : List String) (p q : JObject) :
    ∀ value parent : JObject, getPath (.obj value) pre = some (.obj parent) →
      putPath (putPath value pre p) pre q = putPath value pre q := by
  induction pre with
  | nil => intro value parent _; rfl
  | cons k ks ih =>
      intro value parent h
      obtain ⟨child, hk, hchild⟩ := getPath_cons_obj h
      simp only [putPath, hk, mapGet_mapSet_self, mapSet_mapSet]
      rw [ih child parent hchild]

theorem isRootPath_two (pre : List String) (s next : String) (rest : List String) :
    isRootPath (pre ++ s :: next :: rest) = false := by
  cases pre with
  | nil => simp [isRootPath]
  | cons k ks =>
      cases ks with
      | nil => simp [isRootPath]
      | cons k2 ks2 => simp [isRootPath]

/-- What the walk does from a segment on that is missing or nil in `parent`. -/
theorem storeLoop_fresh_chain (parent : JObject) (s next : String) (rest : List String)
    (metadata : JValue)
    (h : mapGet parent s = none ∨ mapGet parent s = some .null) :
    storeLoop parent (s :: next :: rest) metadata =
      .ok (mapSet parent s (chain (next :: rest) metadata)) := by
  rw [storeLoop_cons_fresh parent s (next :: rest) metadata (by simp) h, storeLoop_empty]
  rfl

theorem storeMetadataByPath_of_not_root {keyPath : List String} (value : JObject)
    (metadata : JValue) (h : isRootPath keyPath = false) :
    storeMetadataByPath value keyPath metadata = storeLoop value keyPath metadata := by
  simp [storeMetadataByPath, h]

/-- The walk along a path whose non-terminal segments resolve to objects ends at
the last key, and leaves there the terminal entry. -/
theorem storeMetadataByPath_resolved (value parent : JObject) (pre : List String)
    (last : String) (metadata : JValue)
    (hroot : isRootPath (pre ++ [last]) = false)
    (hpre : getPath (.obj value) pre = some (.obj parent)) :
    storeMetadataByPath value (pre ++ [last]) metadata =
        .ok (putPath value pre
          (mapSet parent last (terminalEntry (mapGet parent last) metadata))) ∧
      getPath (.obj (putPath value pre
          (mapSet parent last (terminalEntry (mapGet parent last) metadata))))
        (pre ++ [last]) = some (terminalEntry (mapGet parent last) metadata) := by
  constructor
  · rw [storeMetadataByPath_of_not_root _ _ hroot,
      storeLoop_append pre [last] metadata (by simp) value parent hpre, storeLoop_last]
    rfl
  · rw [getPath_append, getPath_putPath pre _ value parent hpre]
    simp [getPath, mapGet_mapSet_self]

theorem storeLoop_ne_err (metadata : JValue) :
    ∀ (keyPath : List String) (value : JObject) (msg : String) (v : JObject),
      storeLoop value keyPath metadata ≠ .err msg v := by
  intro keyPath
  induction keyPath with
  | nil => intro value msg v; simp [storeLoop]
  | cons k ks ih =>
      intro value msg v
      cases ks with
      | nil => simp [storeLoop_last]
      | cons next rest =>
          have hmap : ∀ (f : JObject → JObject) (child : JObject),
              (storeLoop child (next :: rest) metadata).mapValue f ≠ .err msg v := by
            intro f child hEq
            cases ho : storeLoop child (next :: rest) metadata with
            | ok w => simp [ho, Outcome.mapValue] at hEq
            | panic w => simp [ho, Outcome.mapValue] at hEq
            | err m w => exact ih child m w ho
          cases hg : mapGet value k with
          | none =>
              rw [storeLoop_cons_fresh value k (next :: rest) metadata (by simp) (Or.inl hg)]
              exact hmap _ _
          | some c =>
              cases c with
              | null =>
                  rw [storeLoop_cons_fresh value k (next :: rest) metadata (by simp) (Or.inr hg)]
                  exact hmap _ _
              | obj child =>
                  rw [storeLoop_cons_obj value child k (next :: rest) metadata (by simp) hg]
                  exact hmap _ _
              | bool b => simp [storeLoop, hg]
              | num n => simp [storeLoop, hg]
              | str s => simp [storeLoop, hg]
              | arr xs => simp [storeLoop, hg]

/-- The walk panics, with the map as it was, at a non-terminal segment that
holds something that is neither missing, nil, nor a map. -/
theorem storeLoop_cons_conflict (value : JObject) (key next : String) (rest : List String)
    (metadata c : JValue) (hc : mapGet value key = some c) (hnull : c ≠ .null)
    (hobj : ∀ m, c ≠ .obj m) :
    storeLoop value (key :: next :: rest) metadata = .panic value := by
  cases c with
  | null => exact absurd rfl hnull
  | obj m => exact absurd rfl (hobj m)
  | bool b => simp [storeLoop, hc]
  | num n => simp [storeLoop, hc]
  | str s => simp [storeLoop, hc]
  | arr xs => simp [storeLoop, hc]

theorem putPath_self (pre : List String) :
    ∀ value parent : JObject, getPath (.obj value) pre = some (.obj parent) →
      putPath value pre parent = value := by
  induction pre with
  | nil => intro value parent h; simp [getPath] at h; simp [putPath, h]
  | cons k ks ih =>
      intro value parent h
      obtain ⟨child, hk, hchild⟩ := getPath_cons_obj h
      simp only [putPath, hk]
      rw [ih child parent hchild]
      exact mapSet_of_mapGet value hk


/-- Assigning entries a map already holds leaves the map as it is. -/
theorem assignAll_of_held (dst src : JObject)
    (h : ∀ kv ∈ src, mapGet dst kv.1 = some kv.2) : assignAll dst src = dst := by
  induction src with
  | nil => rfl
  | cons kv rest ih =>
      have step : assignAll dst (kv :: rest) = assignAll (mapSet dst kv.1 kv.2) rest := rfl
      rw [step, mapSet_of_mapGet dst (h kv (List.mem_cons_self _ _))]
      exact ih (fun kv' hkv' => h kv' (List.mem_cons_of_mem _ hkv'))

theorem assignAll_assignAll (dst src : JObject) (hsrc : KeysNodup src) :
    assignAll (assignAll dst src) src = assignAll dst src := by
  apply assignAll_of_held
  intro kv hkv
  have hk : kv.1 ∈ mapKeys src := List.mem_map.mpr ⟨kv, hkv, rfl⟩
  rw [mapGet_assignAll_of_mem dst src kv.1 hsrc hk]
  exact mapGet_of_mem_nodup src kv.1 kv.2 hsrc hkv

theorem assignAll_self (src : JObject) (hsrc : KeysNodup src) :
    assignAll src src = src :=
  assignAll_of_held src src (fun kv hkv => mapGet_of_mem_nodup src kv.1 kv.2 hsrc hkv)

/-- The terminal entry computed over itself is itself. -/
theorem terminalEntry_idem (existing : Option JValue) (metadata : JValue)
    (hmeta : ∀ m, metadata = .obj m → KeysNodup m) :
    terminalEntry (some (terminalEntry existing metadata)) metadata =
      terminalEntry existing metadata := by
  cases metadata with
  | obj m =>
      have hm := hmeta m rfl
      cases existing with
      | none => simp [terminalEntry, assignAll_self m hm]
      | some e =>
          cases e with
          | obj em => simp [terminalEntry, assignAll_assignAll em m hm]
          | null => simp [terminalEntry, assignAll_self m hm]
          | bool b => simp [terminalEntry, assignAll_self m hm]
          | num n => simp [terminalEntry, assignAll_self m hm]
          | str s => simp [terminalEntry, assignAll_self m hm]
          | arr xs => simp [terminalEntry, assignAll_self m hm]
  | null => cases existing <;> simp [terminalEntry]
  | bool b => cases existing <;> simp [terminalEntry]
  | num n => cases existing <;> simp [terminalEntry]
  | str s => cases existing <;> simp [terminalEntry]
  | arr xs => cases existing <;> simp [terminalEntry]

theorem Outcome.mapValue_eq_ok {f : JObject → JObject} {o : Outcome} {v : JObject}
    (h : o.mapValue f = .ok v) : ∃ w, o = .ok w ∧ v = f w := by
  cases o with
  | ok w => exact ⟨w, rfl, by simpa [Outcome.mapValue] using h.symm⟩
  | err msg w => simp [Outcome.mapValue] at h
  | panic w => simp [Outcome.mapValue] at h

/-- A walk that returned nil returns nil again on its own result, and leaves
it as it is. -/
theorem storeLoop_idem (metadata : JValue) (hmeta : ∀ m, metadata = .obj m → KeysNodup m) :
    ∀ (keyPath : List String) (value value' : JObject),
      storeLoop value keyPath metadata = .ok value' →
      storeLoop value' keyPath metadata = .ok value' := by
  intro keyPath
  induction keyPath with
  | nil =>
      intro value value' h
      simp [storeLoop] at h
      subst h
      simp [storeLoop]
  | cons k ks ih =>
      intro value value' h
      cases ks with
      | nil =>
          rw [storeLoop_last] at h
          injection h with h
          subst h
          rw [storeLoop_last, mapGet_mapSet_self, terminalEntry_idem _ _ hmeta, mapSet_mapSet]
      | cons next rest =>
          have again : ∀ child child' : JObject,
              storeLoop child (next :: rest) metadata = .ok child' →
              value' = mapSet value k (.obj child') →
              storeLoop value' (k :: next :: rest) metadata = .ok value' := by
            intro child child' hc hv
            have hg : mapGet value' k = some (.obj child') := by
              rw [hv, mapGet_mapSet_self]
            rw [storeLoop_cons_obj value' child' k (next :: rest) metadata (by simp) hg,
              ih child child' hc]
            simp only [Outcome.mapValue]
            rw [hv, mapSet_mapSet]
          cases hg : mapGet value k with
          | none =>
              rw [storeLoop_cons_fresh value k (next :: rest) metadata (by simp) (Or.inl hg)] at h
              obtain ⟨w, hw, hv⟩ := Outcome.mapValue_eq_ok h
              exact again [] w hw hv
          | some c =>
              cases c with
              | null =>
                  rw [storeLoop_cons_fresh value k (next :: rest) metadata (by simp)
                    (Or.inr hg)] at h
                  obtain ⟨w, hw, hv⟩ := Outcome.mapValue_eq_ok h
                  exact again [] w hw hv
              | obj child =>
                  rw [storeLoop_cons_obj value child k (next :: rest) metadata (by simp) hg] at h
                  obtain ⟨w, hw, hv⟩ := Outcome.mapValue_eq_ok h
                  exact again child w hw hv
              | bool b => simp [storeLoop, hg] at h
              | num n => simp [storeLoop, hg] at h
              | str s => simp [storeLoop, hg] at h
              | arr xs => simp [storeLoop, hg] at h

/-- A walk that panics has changed nothing. -/
theorem storeLoop_panic_value (metadata : JValue) :
    ∀ (keyPath : List String) (value v : JObject),
      storeLoop value keyPath metadata = .panic v → v = value := by
  intro keyPath
  induction keyPath with
  | nil => intro value v h; simp [storeLoop] at h
  | cons k ks ih =>
      intro value v h
      cases ks with
      | nil => simp [storeLoop_last] at h
      | cons next rest =>
          cases hg : mapGet value k with
          | none =>
              rw [storeLoop_cons_fresh value k (next :: rest) metadata (by simp) (Or.inl hg),
                storeLoop_empty] at h
              simp [Outcome.mapValue] at h
          | some c =>
              cases c with
              | null =>
                  rw [storeLoop_cons_fresh value k (next :: rest) metadata (by simp) (Or.inr hg),
                    storeLoop_empty] at h
                  simp [Outcome.mapValue] at h
              | obj child =>
                  rw [storeLoop_cons_obj value child k (next :: rest) metadata (by simp) hg] at h
                  cases ho : storeLoop child (next :: rest) metadata with
                  | ok w => simp [ho, Outcome.mapValue] at h
                  | err msg w => simp [ho, Outcome.mapValue] at h
                  | panic w =>
                      have hw := ih child w ho
                      simp only [ho, Outcome.mapValue, Outcome.panic.injEq] at h
                      rw [← h, hw]
                      exact mapSet_of_mapGet value hg
              | bool b => simp [storeLoop, hg] at h; exact h.symm
              | num n => simp [storeLoop, hg] at h; exact h.symm
              | str s => simp [storeLoop, hg] at h; exact h.symm
              | arr xs => simp [storeLoop, hg] at h; exact h.symm

/-! ## Lemmas on the filter -/

theorem keepsKey_iff (key : String) :
    keepsKey key = true ↔ key ≠ "system" ∧ ¬ "system.".data <+: key.data := by
  have hp : stringsHasPrefix key "system." = true ↔ "system.".data <+: key.data := by
    unfold stringsHasPrefix
    exact List.isPrefixOf_iff_prefix
  cases hb : stringsHasPrefix key "system." with
  | true => simp [keepsKey, hb, hp.mp hb]
  | false =>
      have : ¬ "system.".data <+: key.data := fun h => by simp [hp.mpr h] at hb
      simp [keepsKey, hb, this]

theorem removeSystemMetadata_foldl (items acc : List MessageMetadata) :
    items.foldl
        (fun filteredMessageMetadata m =>
          if keepsKey m.Key then
            filteredMessageMetadata ++
              [{ m with Metadata := mapDelete m.Metadata "system" }]
          else filteredMessageMetadata)
        acc = acc ++ privilegeFilter items := by
  induction items generalizing acc with
  | nil => simp [privilegeFilter]
  | cons m rest ih =>
      rw [List.foldl_cons, ih]
      by_cases hk : keepsKey m.Key = true
      · have hk' := (keepsKey_iff m.Key).mp hk
        simp [privilegeFilter, hk, List.filter_cons, hk']
      · have hk' : ¬ (m.Key ≠ "system" ∧ ¬ "system.".data <+: m.Key.data) :=
          fun h => hk ((keepsKey_iff m.Key).mpr h)
        simp [privilegeFilter, hk, List.filter_cons, hk']

theorem removeSystemMetadata_eq (items : List MessageMetadata) :
    removeSystemMetadata items = privilegeFilter items := by
  unfold removeSystemMetadata
  rw [removeSystemMetadata_foldl]
  simp

theorem not_mem_mapKeys_mapDelete (m : JObject) (k : String) :
    k ∉ mapKeys (mapDelete m k) := by
  rw [← mapGet_eq_none_iff]
  exact mapGet_mapDelete_self m k

theorem mem_privilegeFilter {items : List MessageMetadata} {m : MessageMetadata}
    (h : m ∈ privilegeFilter items) :
    keepsKey m.Key = true ∧ "system" ∉ mapKeys m.Metadata := by
  simp only [privilegeFilter, List.mem_map, List.mem_filter] at h
  obtain ⟨m0, ⟨_, hkeep⟩, rfl⟩ := h
  refine ⟨(keepsKey_iff _).mpr (by simpa using hkeep), ?_⟩
  exact not_mem_mapKeys_mapDelete m0.Metadata "system"

theorem splitDot_ne_nil (l : List Char) : splitDot l ≠ [] := by
  induction l with
  | nil => simp [splitDot]
  | cons c cs ih =>
      unfold splitDot
      split
      · simp
      · split <;> simp

/-- The first piece of a split is the whole string, or what stands before its
first dot. -/
theorem splitDot_head {l seg : List Char} {segs : List (List Char)}
    (h : splitDot l = seg :: segs) : l = seg ∨ ∃ r, l = seg ++ '.' :: r := by
  induction l generalizing seg segs with
  | nil =>
      simp [splitDot] at h
      exact Or.inl h.1.symm
  | cons c cs ih =>
      unfold splitDot at h
      by_cases hc : c = '.'
      · simp [hc] at h
        exact Or.inr ⟨cs, by simp [hc, ← h.1]⟩
      · simp only [hc, if_false] at h
        cases hs : splitDot cs with
        | nil => exact absurd hs (splitDot_ne_nil cs)
        | cons seg' segs' =>
            simp only [hs, List.cons.injEq] at h
            rcases ih hs with h1 | ⟨r, h1⟩
            · exact Or.inl (by rw [← h.1, h1])
            · exact Or.inr ⟨r, by rw [← h.1, h1]; rfl⟩

theorem stringsSplit_ne_nil (key : String) : stringsSplit key ≠ [] := by
  simp [stringsSplit, splitDot_ne_nil]

/-- A key that passes the test of line 66 does not have `system` as its first
segment. -/
theorem stringsSplit_head_ne_system {key s1 : String} {rest : List String}
    (hkeep : keepsKey key = true) (h : stringsSplit key = s1 :: rest) :
    s1 ≠ "system" := by
  intro hs
  obtain ⟨hne, hpre⟩ := (keepsKey_iff key).mp hkeep
  unfold stringsSplit at h
  cases hsp : splitDot key.data with
  | nil => exact absurd hsp (splitDot_ne_nil _)
  | cons seg segs =>
      rw [hsp] at h
      simp only [List.map_cons, List.cons.injEq] at h
      have hseg : seg = "system".data := by
        have := congrArg String.data h.1
        rw [hs] at this
        exact this
      rcases splitDot_head hsp with h1 | ⟨r, h1⟩
      · apply hne
        have : key = String.mk key.data := rfl
        rw [this, h1, hseg]
      · apply hpre
        rw [h1, hseg]
        exact ⟨r, by simp⟩

theorem Outcome.value_mapValue (f : JObject → JObject) (o : Outcome) :
    (o.mapValue f).value = f o.value := by
  cases o <;> rfl

/-- The walk touches the entry at its first segment only. -/
theorem storeLoop_frame_top (value : JObject) (s1 : String) (rest : List String)
    (metadata : JValue) {k : String} (hk : k ≠ s1) :
    mapGet (storeLoop value (s1 :: rest) metadata).value k = mapGet value k := by
  cases rest with
  | nil =>
      rw [storeLoop_last]
      exact mapGet_mapSet_of_ne value _ hk
  | cons next rest =>
      cases hg : mapGet value s1 with
      | none =>
          rw [storeLoop_cons_fresh value s1 (next :: rest) metadata (by simp) (Or.inl hg),
            Outcome.value_mapValue]
          exact mapGet_mapSet_of_ne value _ hk
      | some c =>
          cases c with
          | null =>
              rw [storeLoop_cons_fresh value s1 (next :: rest) metadata (by simp) (Or.inr hg),
                Outcome.value_mapValue]
              exact mapGet_mapSet_of_ne value _ hk
          | obj child =>
              rw [storeLoop_cons_obj value child s1 (next :: rest) metadata (by simp) hg,
                Outcome.value_mapValue]
              exact mapGet_mapSet_of_ne value _ hk
          | bool b => simp [storeLoop, hg, Outcome.value]
          | num n => simp [storeLoop, hg, Outcome.value]
          | str s => simp [storeLoop, hg, Outcome.value]
          | arr xs => simp [storeLoop, hg, Outcome.value]

/-- One surviving item leaves the `system` entry of the document alone. -/
theorem mergeItem_system (value : JObject) (m : MessageMetadata)
    (hkeep : keepsKey m.Key = true) (hsys : "system" ∉ mapKeys m.Metadata) :
    mapGet (mergeItem value m).value "system" = mapGet value "system" := by
  unfold mergeItem storeMetadataByPath
  cases hr : isRootPath (stringsSplit m.Key) with
  | true =>
      simp only [if_true, Outcome.value]
      exact mapGet_assignAll_of_not_mem value m.Metadata "system" hsys
  | false =>
      simp only [Bool.false_eq_true, if_false]
      cases hp : stringsSplit m.Key with
      | nil => exact absurd hp (stringsSplit_ne_nil _)
      | cons s1 rest =>
          have hne := stringsSplit_head_ne_system hkeep hp
          exact storeLoop_frame_top value s1 rest _ (Ne.symm hne)

theorem mergeItems_system (items : List MessageMetadata)
    (hall : ∀ m ∈ items, keepsKey m.Key = true ∧ "system" ∉ mapKeys m.Metadata) :
    ∀ value : JObject,
      mapGet (mergeItems value items).value "system" = mapGet value "system" := by
  induction items with
  | nil => intro value; rfl
  | cons m rest ih =>
      intro value
      have hm := hall m (List.mem_cons_self _ _)
      have h1 := mergeItem_system value m hm.1 hm.2
      have hrest : ∀ m' ∈ rest, keepsKey m'.Key = true ∧ "system" ∉ mapKeys m'.Metadata :=
        fun m' hm' => hall m' (List.mem_cons_of_mem _ hm')
      unfold mergeItems
      cases ho : mergeItem value m with
      | ok value' =>
          simp only
          rw [ih hrest value', ← h1, ho]
          rfl
      | err msg v => simp only; rw [← h1, ho]
      | panic v => simp only; rw [← h1, ho]

theorem mem_removeSystemMetadata {items : List MessageMetadata} {m : MessageMetadata}
    (h : m ∈ removeSystemMetadata items) :
    keepsKey m.Key = true ∧ "system" ∉ mapKeys m.Metadata := by
  rw [removeSystemMetadata_eq] at h
  exact mem_privilegeFilter h

/-- A batch of keys in the reserved namespace is filtered down to nothing. -/
theorem removeSystemMetadata_reserved (items : List MessageMetadata)
    (hkeys : ∀ m ∈ items, m.Key = "system" ∨ "system.".data <+: m.Key.data) :
    removeSystemMetadata items = [] := by
  rw [removeSystemMetadata_eq]
  unfold privilegeFilter
  rw [List.map_eq_nil_iff, List.filter_eq_nil_iff]
  intro m hm
  rcases hkeys m hm with h | h
  · simp [h]
  · simp [h]

/-! ## Lemmas on the transaction -/

/-- An item only appends lock, select and update statements to the log. -/
theorem putMessageMetadataTx_log (faults : Faults) (i : Nat) (tx : Tx) (sessionID : String)
    (m : MessageMetadata) :
    ∃ evs, (putMessageMetadataTx faults i tx sessionID m).2.log = tx.log ++ evs ∧
      ∀ ev ∈ evs, Event.isItemStatement ev = true := by
  unfold putMessageMetadataTx
  simp only [Tx.logged]
  split
  · exact ⟨[.lock (sessionID ++ m.UUID)], rfl, by simp [Event.isItemStatement]⟩
  · split
    · exact ⟨[.lock (sessionID ++ m.UUID), .select sessionID m.UUID],
          by simp, by simp [Event.isItemStatement]⟩
    · split
      · exact ⟨[.lock (sessionID ++ m.UUID), .select sessionID m.UUID],
          by simp, by simp [Event.isItemStatement]⟩
      · split
        · exact ⟨[.lock (sessionID ++ m.UUID), .select sessionID m.UUID],
          by simp, by simp [Event.isItemStatement]⟩
        · exact ⟨[.lock (sessionID ++ m.UUID), .select sessionID m.UUID],
          by simp, by simp [Event.isItemStatement]⟩
        · split
          · exact ⟨[.lock (sessionID ++ m.UUID), .select sessionID m.UUID, .update sessionID m.UUID],
              by simp, by simp [Event.isItemStatement]⟩
          · exact ⟨[.lock (sessionID ++ m.UUID), .select sessionID m.UUID, .update sessionID m.UUID],
              by simp, by simp [Event.isItemStatement]⟩

theorem putLoop_cons (faults : Faults) (sessionID : String) (i : Nat) (tx : Tx)
    (m : MessageMetadata) (rest : List MessageMetadata) :
    putLoop faults sessionID i tx (m :: rest) =
      match putMessageMetadataTx faults i tx sessionID m with
      | (.nil, tx') => putLoop faults sessionID (i + 1) tx' rest
      | (.error e, tx') =>
          (.error (NewStorageError "failed to put message metadata" e), tx')
      | (.panic, tx') => (.panic, tx') := by
  cases h : putMessageMetadataTx faults i tx sessionID m with
  | mk ret tx' => cases ret <;> simp [putLoop, h]

theorem putLoop_log (faults : Faults) (sessionID : String) (items : List MessageMetadata) :
    ∀ (i : Nat) (tx : Tx),
      ∃ evs, (putLoop faults sessionID i tx items).2.log = tx.log ++ evs ∧
        ∀ ev ∈ evs, Event.isItemStatement ev = true := by
  induction items with
  | nil => intro i tx; exact ⟨[], by simp [putLoop], by simp⟩
  | cons m rest ih =>
      intro i tx
      obtain ⟨evs1, h1, h1'⟩ := putMessageMetadataTx_log faults i tx sessionID m
      rw [putLoop_cons]
      cases hr : putMessageMetadataTx faults i tx sessionID m with
      | mk ret tx' =>
          rw [hr] at h1
          cases ret with
          | nil =>
              obtain ⟨evs2, h2, h2'⟩ := ih (i + 1) tx'
              refine ⟨evs1 ++ evs2, ?_, ?_⟩
              · simp only [h2]
                rw [show tx'.log = tx.log ++ evs1 from h1, List.append_assoc]
              · intro ev hev
                rcases List.mem_append.mp hev with h | h
                · exact h1' ev h
                · exact h2' ev h
          | error e => exact ⟨evs1, h1, h1'⟩
          | panic => exact ⟨evs1, h1, h1'⟩

/-- The loop over a batch is the loop over its first items, continued on the
others when all of those returned nil. -/
theorem putLoop_append (faults : Faults) (sessionID : String)
    (done rest : List MessageMetadata) :
    ∀ (i : Nat) (tx tx1 : Tx), putLoop faults sessionID i tx done = (.nil, tx1) →
      putLoop faults sessionID i tx (done ++ rest) =
        putLoop faults sessionID (i + done.length) tx1 rest := by
  induction done with
  | nil =>
      intro i tx tx1 h
      simp only [putLoop, Prod.mk.injEq, true_and] at h
      simp [h]
  | cons m done ih =>
      intro i tx tx1 h
      rw [putLoop_cons] at h
      rw [List.cons_append, putLoop_cons]
      cases hr : putMessageMetadataTx faults i tx sessionID m with
      | mk ret tx' =>
          rw [hr] at h
          cases ret with
          | nil =>
              simp only at h ⊢
              rw [ih (i + 1) tx' tx1 h]
              congr 1
              simp only [List.length_cons]
              omega
          | error e => simp at h
          | panic => simp at h

/-- What an item that returned nil has done. -/
theorem putMessageMetadataTx_nil {faults : Faults} {i : Nat} {tx tx' : Tx}
    {sessionID : String} {m : MessageMetadata}
    (h : putMessageMetadataTx faults i tx sessionID m = (.nil, tx')) :
    ∃ msg value, selectRow tx.rows sessionID m.UUID = some msg ∧
      mergeItem (msg.Metadata.getD []) m = .ok value ∧
      tx' = { rows := updateRows tx.rows sessionID m.UUID value,
              log := tx.log ++ itemStatements sessionID m } := by
  unfold putMessageMetadataTx at h
  simp only [Tx.logged] at h
  split at h
  · simp at h
  · split at h
    · simp at h
    · split at h
      · simp at h
      · rename_i msg hsel
        split at h
        · simp at h
        · simp at h
        · rename_i value hmerge
          split at h
          · simp at h
          · simp only [Prod.mk.injEq, true_and] at h
            refine ⟨msg, value, hsel, hmerge, ?_⟩
            rw [← h]
            simp [itemStatements]

theorem rowMatches_update (sessionID uuid sessionID' uuid' : String) (value : JObject)
    (r : PgMessageStore) :
    rowMatches sessionID' uuid'
        (if rowMatches sessionID uuid r then { r with Metadata := some value } else r) =
      rowMatches sessionID' uuid' r := by
  split <;> rfl

theorem selectRow_updateRows (rows : List PgMessageStore) (sessionID uuid uuid' : String)
    (value : JObject) :
    selectRow (updateRows rows sessionID uuid value) sessionID uuid' =
      (selectRow rows sessionID uuid').map
        (fun r => if rowMatches sessionID uuid r then { r with Metadata := some value } else r) := by
  induction rows with
  | nil => rfl
  | cons r rest ih =>
      unfold selectRow updateRows at ih ⊢
      simp only [List.map_cons, List.find?_cons, rowMatches_update]
      cases rowMatches sessionID uuid' r with
      | true => rfl
      | false => exact ih

theorem docOf_updateRows_self (rows : List PgMessageStore) (sessionID uuid : String)
    (value d : JObject) (h : docOf rows sessionID uuid = some d) :
    docOf (updateRows rows sessionID uuid value) sessionID uuid = some value := by
  unfold docOf at h ⊢
  rw [selectRow_updateRows]
  cases hs : selectRow rows sessionID uuid with
  | none => simp [hs] at h
  | some r =>
      have hm : rowMatches sessionID uuid r = true := by
        unfold selectRow at hs
        exact List.find?_some hs
      simp [hm]

theorem docOf_updateRows_of_ne (rows : List PgMessageStore) (sessionID uuid uuid' : String)
    (value : JObject) (hne : uuid' ≠ uuid) :
    docOf (updateRows rows sessionID uuid value) sessionID uuid' =
      docOf rows sessionID uuid' := by
  unfold docOf
  rw [selectRow_updateRows]
  cases hs : selectRow rows sessionID uuid' with
  | none => rfl
  | some r =>
      have hm : rowMatches sessionID uuid' r = true := by
        unfold selectRow at hs
        exact List.find?_some hs
      have hu : r.UUID = uuid' := by
        simp [rowMatches] at hm
        exact hm.2
      have hm' : rowMatches sessionID uuid r = false := by
        simp [rowMatches, hu, hne]
      simp [hm']

theorem mergeItems_cons_ok {value value' : JObject} {m : MessageMetadata}
    (rest : List MessageMetadata) (h : mergeItem value m = .ok value') :
    mergeItems value (m :: rest) = mergeItems value' rest := by
  rw [mergeItems]
  simp [h]

/-- When the loop returns nil, each item has sent its three statements in input
order and every target holds the fold of its items. -/
theorem putLoop_nil (faults : Faults) (sessionID : String) (items : List MessageMetadata) :
    ∀ (i : Nat) (t0 t1 : Tx), putLoop faults sessionID i t0 items = (.nil, t1) →
      t1.log = t0.log ++ (items.map (itemStatements sessionID)).flatten ∧
      ∀ uuid d, docOf t0.rows sessionID uuid = some d →
        ∃ d', mergeItems d (itemsFor uuid items) = .ok d' ∧
          docOf t1.rows sessionID uuid = some d' := by
  induction items with
  | nil =>
      intro i t0 t1 h
      simp only [putLoop, Prod.mk.injEq, true_and] at h
      subst h
      exact ⟨by simp, fun uuid d hd => ⟨d, rfl, hd⟩⟩
  | cons m rest ih =>
      intro i t0 t1 h
      rw [putLoop_cons] at h
      cases hr : putMessageMetadataTx faults i t0 sessionID m with
      | mk ret tx' =>
          rw [hr] at h
          cases ret with
          | error e => simp at h
          | panic => simp at h
          | nil =>
              simp only at h
              obtain ⟨msg, value, hsel, hmerge, htx⟩ := putMessageMetadataTx_nil hr
              obtain ⟨hlog, hdocs⟩ := ih (i + 1) tx' t1 h
              refine ⟨?_, ?_⟩
              · rw [hlog, htx]
                simp [List.append_assoc]
              · intro uuid d hd
                by_cases hu : m.UUID = uuid
                · have hd0 : d = msg.Metadata.getD [] := by
                    unfold docOf at hd
                    rw [← hu, hsel] at hd
                    simpa using hd.symm
                  have hd1 : docOf tx'.rows sessionID uuid = some value := by
                    rw [htx, ← hu]
                    exact docOf_updateRows_self t0.rows sessionID m.UUID value d (hu ▸ hd)
                  obtain ⟨d', hfold, hfin⟩ := hdocs uuid value hd1
                  refine ⟨d', ?_, hfin⟩
                  have hfilter : itemsFor uuid (m :: rest) = m :: itemsFor uuid rest := by
                    simp [itemsFor, List.filter_cons, hu]
                  rw [hfilter, mergeItems_cons_ok _ (hd0 ▸ hmerge)]
                  exact hfold
                · have hd1 : docOf tx'.rows sessionID uuid = some d := by
                    rw [htx]
                    simp only
                    rw [docOf_updateRows_of_ne t0.rows sessionID m.UUID uuid value
                      (fun e => hu e.symm)]
                    exact hd
                  obtain ⟨d', hfold, hfin⟩ := hdocs uuid d hd1
                  refine ⟨d', ?_, hfin⟩
                  have hfilter : itemsFor uuid (m :: rest) = itemsFor uuid rest := by
                    simp [itemsFor, List.filter_cons, hu]
                  rw [hfilter]
                  exact hfold

/-- After a walk that returned nil, the path leads to the terminal entry. -/
theorem storeLoop_ok_getPath (metadata : JValue) :
    ∀ (keyPath : List String) (value value' : JObject), keyPath ≠ [] →
      storeLoop value keyPath metadata = .ok value' →
      ∃ existing, getPath (.obj value') keyPath = some (terminalEntry existing metadata) := by
  intro keyPath
  induction keyPath with
  | nil => intro value value' hne; exact absurd rfl hne
  | cons k ks ih =>
      intro value value' _ h
      cases ks with
      | nil =>
          rw [storeLoop_last] at h
          injection h with h
          subst h
          exact ⟨mapGet value k, by simp [getPath, mapGet_mapSet_self]⟩
      | cons next rest =>
          have descend : ∀ child child' : JObject,
              storeLoop child (next :: rest) metadata = .ok child' →
              value' = mapSet value k (.obj child') →
              ∃ existing, getPath (.obj value') (k :: next :: rest) =
                some (terminalEntry existing metadata) := by
            intro child child' hc hv
            obtain ⟨existing, he⟩ := ih child child' (by simp) hc
            refine ⟨existing, ?_⟩
            rw [hv]
            simp only [getPath, mapGet_mapSet_self]
            exact he
          cases hg : mapGet value k with
          | none =>
              rw [storeLoop_cons_fresh value k (next :: rest) metadata (by simp) (Or.inl hg)] at h
              obtain ⟨w, hw, hv⟩ := Outcome.mapValue_eq_ok h
              exact descend [] w hw hv
          | some c =>
              cases c with
              | null =>
                  rw [storeLoop_cons_fresh value k (next :: rest) metadata (by simp)
                    (Or.inr hg)] at h
                  obtain ⟨w, hw, hv⟩ := Outcome.mapValue_eq_ok h
                  exact descend [] w hw hv
              | obj child =>
                  rw [storeLoop_cons_obj value child k (next :: rest) metadata (by simp) hg] at h
                  obtain ⟨w, hw, hv⟩ := Outcome.mapValue_eq_ok h
                  exact descend child w hw hv
              | bool b => simp [storeLoop, hg] at h
              | num n => simp [storeLoop, hg] at h
              | str s => simp [storeLoop, hg] at h
              | arr xs => simp [storeLoop, hg] at h

/-- The terminal entry for an incoming map is a map that holds the incoming
entries. -/
theorem terminalEntry_obj (existing : Option JValue) (m : JObject) (hm : KeysNodup m) :
    ∃ r, terminalEntry existing (.obj m) = .obj r ∧
      ∀ k ∈ mapKeys m, mapGet r k = mapGet m k := by
  cases existing with
  | none => exact ⟨m, rfl, fun _ _ => rfl⟩
  | some e =>
      cases e with
      | obj em =>
          exact ⟨assignAll em m, rfl, fun k hk => mapGet_assignAll_of_mem em m k hm hk⟩
      | null => exact ⟨m, rfl, fun _ _ => rfl⟩
      | bool b => exact ⟨m, rfl, fun _ _ => rfl⟩
      | num n => exact ⟨m, rfl, fun _ _ => rfl⟩
      | str s => exact ⟨m, rfl, fun _ _ => rfl⟩
      | arr xs => exact ⟨m, rfl, fun _ _ => rfl⟩

/-- After an item has been merged, the place its key addresses holds the
entries of its value. -/
theorem mergeItem_ok_entries {value value' : JObject} {m : MessageMetadata}
    (hm : KeysNodup m.Metadata) (h : mergeItem value m = .ok value') :
    ∃ r, objectAt value' (stringsSplit m.Key) = some (.obj r) ∧
      ∀ k ∈ mapKeys m.Metadata, mapGet r k = mapGet m.Metadata k := by
  unfold mergeItem storeMetadataByPath at h
  unfold objectAt
  cases hr : isRootPath (stringsSplit m.Key) with
  | true =>
      simp only [hr, if_true, Outcome.ok.injEq] at h
      subst h
      exact ⟨_, by simp, fun k hk => mapGet_assignAll_of_mem value m.Metadata k hm hk⟩
  | false =>
      simp only [hr, Bool.false_eq_true, if_false] at h
      obtain ⟨existing, he⟩ := storeLoop_ok_getPath (.obj m.Metadata) (stringsSplit m.Key)
        value value' (stringsSplit_ne_nil m.Key) h
      obtain ⟨r, hr1, hr2⟩ := terminalEntry_obj existing m.Metadata hm
      exact ⟨r, by simp [he, hr1], hr2⟩

theorem mergeItems_append_singleton {value value' : JObject} (before : List MessageMetadata)
    {m : MessageMetadata} (h : mergeItems value (before ++ [m]) = .ok value') :
    ∃ mid, mergeItems value before = .ok mid ∧ mergeItem mid m = .ok value' := by
  induction before generalizing value with
  | nil =>
      simp only [List.nil_append] at h
      rw [mergeItems] at h
      cases ho : mergeItem value m with
      | ok w =>
          simp only [ho, mergeItems] at h
          exact ⟨value, rfl, by rw [ho, h]⟩
      | err msg w => simp [ho] at h
      | panic w => simp [ho] at h
  | cons b rest ih =>
      rw [List.cons_append, mergeItems] at h
      cases ho : mergeItem value b with
      | ok w =>
          simp only [ho] at h
          obtain ⟨mid, h1, h2⟩ := ih h
          exact ⟨mid, by rw [mergeItems_cons_ok _ ho]; exact h1, h2⟩
      | err msg w => simp [ho] at h
      | panic w => simp [ho] at h

/-! ## The claims -/

/-- C1 (shallow-merge law).  Along a non-root key path `pre ++ [last]` whose
non-terminal segments `pre` resolve to the object `parent`, where the entry at
`last` is an object and the incoming value is an object, the call returns nil
and the entry at the path is then an object whose keys are those of the
existing and of the incoming object, whose incoming keys carry the incoming
values (whatever was under them before), and whose other keys keep their old
values. -/
theorem storeMetadataByPath_shallow_merge (value parent existingMap metadataMap : JObject)
    (pre : List String) (last : String)
    (hroot : pre ≠ [] ∨ last ≠ "")
    (hpre : getPath (.obj value) pre = some (.obj parent))
    (hlast : mapGet parent last = some (.obj existingMap))
    (hmeta : KeysNodup metadataMap) :
    ∃ value' merged,
      storeMetadataByPath value (pre ++ [last]) (.obj metadataMap) = .ok value' ∧
      getPath (.obj value') (pre ++ [last]) = some (.obj merged) ∧
      (∀ k, k ∈ mapKeys merged ↔ k ∈ mapKeys existingMap ∨ k ∈ mapKeys metadataMap) ∧
      (∀ k, k ∈ mapKeys metadataMap → mapGet merged k = mapGet metadataMap k) ∧
      (∀ k, k ∉ mapKeys metadataMap → mapGet merged k = mapGet existingMap k) := by
  have hr := (isRootPath_append_last pre last).mpr hroot
  obtain ⟨h1, h2⟩ := storeMetadataByPath_resolved value parent pre last (.obj metadataMap) hr hpre
  refine ⟨_, assignAll existingMap metadataMap, h1, ?_, ?_, ?_, ?_⟩
  · rw [h2, hlast]; rfl
  · exact mem_mapKeys_assignAll existingMap metadataMap
  · exact fun k hk => mapGet_assignAll_of_mem existingMap metadataMap k hmeta hk
  · exact fun k hk => mapGet_assignAll_of_not_mem existingMap metadataMap k hk

theorem storeMetadataByPath_shallow_merge_witness :
    storeMetadataByPath [("tags", .obj [("x", .num 1)])] ["tags"] (.obj [("y", .num 2)]) =
      .ok [("tags", .obj [("x", .num 1), ("y", .num 2)])] ∧
    ∃ value' merged,
      storeMetadataByPath [("tags", .obj [("x", .num 1)])] ["tags"]
          (.obj [("y", .num 2)]) = .ok value' ∧
      getPath (.obj value') ["tags"] = some (.obj merged) ∧
      (∀ k, k ∈ mapKeys merged ↔ k ∈ mapKeys [("x", .num 1)] ∨ k ∈ mapKeys [("y", .num 2)]) ∧
      (∀ k, k ∈ mapKeys [("y", JValue.num 2)] → mapGet merged k = mapGet [("y", .num 2)] k) ∧
      (∀ k, k ∉ mapKeys [("y", JValue.num 2)] → mapGet merged k = mapGet [("x", .num 1)] k) :=
  ⟨rfl,
    storeMetadataByPath_shallow_merge [("tags", .obj [("x", .num 1)])]
      [("tags", .obj [("x", .num 1)])] [("x", .num 1)] [("y", .num 2)] [] "tags"
      (Or.inr (by decide)) rfl rfl (by simp [KeysNodup, mapKeys])⟩

/-- C2 (overwrite law).  Along a non-root key path `pre ++ [last]` whose
non-terminal segments resolve to the object `parent`, when the entry at `last`
is not an object (missing, nil, array or scalar) or the incoming value is not
an object, the call returns nil and the entry at the path is then exactly the
incoming value. -/
theorem storeMetadataByPath_overwrite (value parent : JObject)
    (pre : List String) (last : String) (metadata : JValue)
    (hroot : pre ≠ [] ∨ last ≠ "")
    (hpre : getPath (.obj value) pre = some (.obj parent))
    (hside : (∀ existingMap, mapGet parent last ≠ some (.obj existingMap)) ∨
      (∀ metadataMap, metadata ≠ .obj metadataMap)) :
    ∃ value',
      storeMetadataByPath value (pre ++ [last]) metadata = .ok value' ∧
      getPath (.obj value') (pre ++ [last]) = some metadata := by
  have hr := (isRootPath_append_last pre last).mpr hroot
  obtain ⟨h1, h2⟩ := storeMetadataByPath_resolved value parent pre last metadata hr hpre
  refine ⟨_, h1, ?_⟩
  rw [h2]
  congr 1
  unfold terminalEntry
  split
  · rename_i existingMap metadataMap he
    rcases hside with hs | hs
    · exact absurd he (hs existingMap)
    · exact absurd rfl (hs metadataMap)
  · rfl

theorem storeMetadataByPath_overwrite_witness :
    storeMetadataByPath [("tags", .str "plain")] ["tags"] (.obj [("y", .num 2)]) =
      .ok [("tags", .obj [("y", .num 2)])] ∧
    ∃ value',
      storeMetadataByPath [("tags", .str "plain")] ["tags"] (.obj [("y", .num 2)]) =
        .ok value' ∧
      getPath (.obj value') ["tags"] = some (.obj [("y", .num 2)]) :=
  ⟨rfl,
    storeMetadataByPath_overwrite [("tags", .str "plain")] [("tags", .str "plain")] []
      "tags" (.obj [("y", .num 2)]) (Or.inr (by decide)) rfl
      (Or.inl (fun existingMap h => by simp [mapGet] at h))⟩

/-- C3 (root merge).  For the key path `[]` or `[""]`, the latter being what
splitting the empty key on `"."` gives, and an incoming object, the call returns
nil and the document then maps every incoming key to the incoming value and
every other key to what it held before. -/
theorem storeMetadataByPath_root_merge (value metadataMap : JObject) (keyPath : List String)
    (hroot : keyPath = [] ∨ keyPath = [""]) (hmeta : KeysNodup metadataMap) :
    stringsSplit "" = [""] ∧
    ∃ value', storeMetadataByPath value keyPath (.obj metadataMap) = .ok value' ∧
      (∀ k, k ∈ mapKeys metadataMap → mapGet value' k = mapGet metadataMap k) ∧
      (∀ k, k ∉ mapKeys metadataMap → mapGet value' k = mapGet value k) := by
  refine ⟨rfl, assignAll value metadataMap, ?_, ?_, ?_⟩
  · simp [storeMetadataByPath, (isRootPath_iff keyPath).mpr hroot]
  · exact fun k hk => mapGet_assignAll_of_mem value metadataMap k hmeta hk
  · exact fun k hk => mapGet_assignAll_of_not_mem value metadataMap k hk

theorem storeMetadataByPath_root_merge_witness :
    mergeItem [("a", .num 0), ("b", .num 2)]
        { UUID := "m1", Key := "", Metadata := [("a", .num 1)] } =
      .ok [("a", .num 1), ("b", .num 2)] ∧
    (stringsSplit "" = [""] ∧
    ∃ value', storeMetadataByPath [("a", .num 0), ("b", .num 2)] [""]
        (.obj [("a", .num 1)]) = .ok value' ∧
      (∀ k, k ∈ mapKeys [("a", JValue.num 1)] → mapGet value' k = mapGet [("a", .num 1)] k) ∧
      (∀ k, k ∉ mapKeys [("a", JValue.num 1)] →
        mapGet value' k = mapGet [("a", .num 0), ("b", .num 2)] k)) :=
  ⟨rfl,
    storeMetadataByPath_root_merge [("a", .num 0), ("b", .num 2)] [("a", .num 1)] [""]
      (Or.inr rfl) (by simp [KeysNodup, mapKeys])⟩

/-- C4 (reserved-namespace invariant).  Whatever the document and the batch,
once the batch has gone through `removeSystemMetadata` and its surviving items
have been merged one after the other (key split on `"."`, then
`storeMetadataByPath`), up to the end of the batch or to the first item that
does not return nil, the document holds at its top-level key `system` exactly
what it held before: absent stays absent, present stays the same value. -/
theorem system_entry_unchanged (value : JObject) (items : List MessageMetadata) :
    mapGet (mergeItems value (removeSystemMetadata items)).value "system" =
      mapGet value "system" := by
  rw [removeSystemMetadata_eq]
  exact mergeItems_system _ (fun m hm => mem_privilegeFilter hm) value

/-- C5 (privilege filter).  What `removeSystemMetadata` returns is the spec's
filter: the items whose key is neither `system` nor prefixed by `system.`, in
input order, each with `system` deleted from its value, which leaves every
other key of the value as it was.  An unprivileged call runs the batch on that
list, a privileged call on the items as given. -/
theorem removeSystemMetadata_filters (faults : Faults) (db : Store) (sessionID : String)
    (items : List MessageMetadata) :
    removeSystemMetadata items = privilegeFilter items ∧
    (∀ (value : JObject) (k : String), k ≠ "system" →
      mapGet (mapDelete value "system") k = mapGet value k) ∧
    (∀ value : JObject, mapGet (mapDelete value "system") "system" = none) ∧
    putMessageMetadata faults db sessionID items false =
      runBatch faults db sessionID (privilegeFilter items) ∧
    putMessageMetadata faults db sessionID items true =
      runBatch faults db sessionID items := by
  refine ⟨removeSystemMetadata_eq items, ?_, ?_, ?_, rfl⟩
  · exact fun value k hk => mapGet_mapDelete_of_ne value hk
  · exact fun value => mapGet_mapDelete_self value "system"
  · simp [putMessageMetadata, removeSystemMetadata_eq]

theorem removeSystemMetadata_filters_witness :
    removeSystemMetadata
        [{ UUID := "m1", Key := "system", Metadata := [("a", .num 1)] },
         { UUID := "m1", Key := "profile", Metadata := [("system", .null), ("b", .num 2)] },
         { UUID := "m1", Key := "system.flag", Metadata := [("flag", .bool true)] },
         { UUID := "m1", Key := "systemic", Metadata := [("c", .num 3)] }] =
      [{ UUID := "m1", Key := "profile", Metadata := [("b", .num 2)] },
       { UUID := "m1", Key := "systemic", Metadata := [("c", .num 3)] }] ∧
    mapGet (mapDelete [("system", .null), ("b", .num 2)] "system") "b" =
      mapGet [("system", .null), ("b", .num 2)] "b" :=
  ⟨rfl,
    (removeSystemMetadata_filters noFaults { committed := [], pending := none, log := [] }
      "s" []).2.1 [("system", .null), ("b", .num 2)] "b" (by decide)⟩

/-- C6 (intermediate-segment creation).  When the walk has reached the object
`parent` along `pre` and the next, non-terminal segment `s` is missing or nil
there, the call returns nil, it ends as it does on the document that holds an
empty object at `s`, and the entry at `pre ++ [s]` is then the chain of
single-key objects along the remaining segments that ends in the incoming
value; for `pre = []` the document is the old one with that chain at `s`. -/
theorem storeMetadataByPath_creates_intermediate (value parent : JObject)
    (pre : List String) (s next : String) (rest : List String) (metadata : JValue)
    (hpre : getPath (.obj value) pre = some (.obj parent))
    (habsent : mapGet parent s = none ∨ mapGet parent s = some .null) :
    ∃ value',
      storeMetadataByPath value (pre ++ s :: next :: rest) metadata = .ok value' ∧
      storeMetadataByPath (putPath value pre (mapSet parent s (.obj [])))
        (pre ++ s :: next :: rest) metadata = .ok value' ∧
      getPath (.obj value') (pre ++ [s]) = some (chain (next :: rest) metadata) ∧
      (pre = [] → value' = mapSet value s (chain (next :: rest) metadata)) := by
  have hr := isRootPath_two pre s next rest
  refine ⟨putPath value pre (mapSet parent s (chain (next :: rest) metadata)), ?_, ?_, ?_, ?_⟩
  · rw [storeMetadataByPath_of_not_root _ _ hr,
      storeLoop_append pre (s :: next :: rest) metadata (by simp) value parent hpre,
      storeLoop_fresh_chain parent s next rest metadata habsent]
    rfl
  · rw [storeMetadataByPath_of_not_root _ _ hr,
      storeLoop_append pre (s :: next :: rest) metadata (by simp) _ _
        (getPath_putPath pre _ value parent hpre),
      storeLoop_cons_obj _ [] s (next :: rest) metadata (by simp) (mapGet_mapSet_self _ _ _),
      storeLoop_empty]
    simp only [Outcome.mapValue, mapSet_mapSet]
    rw [putPath_putPath pre _ _ value parent hpre]
    rfl
  · rw [getPath_append, getPath_putPath pre _ value parent hpre]
    simp [getPath, mapGet_mapSet_self, chain]
  · intro hnil
    subst hnil
    simp [getPath] at hpre
    subst hpre
    rfl

theorem storeMetadataByPath_creates_intermediate_witness :
    storeMetadataByPath [("a", .null), ("k", .num 7)] ["a", "b", "c"] (.num 2) =
      .ok [("a", .obj [("b", .obj [("c", .num 2)])]), ("k", .num 7)] ∧
    ∃ value',
      storeMetadataByPath [("a", .null), ("k", .num 7)] ["a", "b", "c"] (.num 2) =
        .ok value' ∧
      storeMetadataByPath [("a", .obj []), ("k", .num 7)] ["a", "b", "c"] (.num 2) =
        .ok value' ∧
      getPath (.obj value') ["a"] = some (chain ["b", "c"] (.num 2)) ∧
      (([] : List String) = [] →
        value' = mapSet [("a", .null), ("k", .num 7)] "a" (chain ["b", "c"] (.num 2))) :=
  ⟨rfl,
    storeMetadataByPath_creates_intermediate [("a", .null), ("k", .num 7)]
      [("a", .null), ("k", .num 7)] [] "a" "b" ["c"] (.num 2) rfl (Or.inr rfl)⟩

/-- C7, as stated, fails: merging the item with key `profile.name` and value
`{"name":"Alice"}` into the empty document does not give
`{"profile":{"name":"Alice"}}`. -/
theorem scenario1_not_as_stated :
    mergeItem [] { UUID := "m1", Key := "profile.name", Metadata := [("name", .str "Alice")] } ≠
      .ok [("profile", .obj [("name", .str "Alice")])] := by
  intro h
  cases h

/-- C7 (concrete scenario 1, amended).  The key `profile.name` splits into
`profile` and `name`, and merging the item with value `{"name":"Alice"}` into
the empty document returns nil with the document
`{"profile":{"name":{"name":"Alice"}}}`: the whole value of the item is stored
under the last segment. -/
theorem scenario1_nested (uuid : String) :
    stringsSplit "profile.name" = ["profile", "name"] ∧
    mergeItem [] { UUID := uuid, Key := "profile.name", Metadata := [("name", .str "Alice")] } =
      .ok [("profile", .obj [("name", .obj [("name", .str "Alice")])])] :=
  ⟨rfl, rfl⟩

/-- C8 (what the code does at a path conflict).  When the walk has reached the
object `parent` along `pre` and the next, non-terminal segment holds a value
that is neither nil nor a map, the type assertion of line 170 panics: the call
does not return, the map is as it was, and no error value reaches the caller. -/
theorem storeMetadataByPath_conflict_panics (value parent : JObject)
    (pre : List String) (s next : String) (rest : List String) (metadata c : JValue)
    (hpre : getPath (.obj value) pre = some (.obj parent))
    (hc : mapGet parent s = some c) (hnull : c ≠ .null) (hobj : ∀ m, c ≠ .obj m) :
    storeMetadataByPath value (pre ++ s :: next :: rest) metadata = .panic value ∧
      ∀ msg v, storeMetadataByPath value (pre ++ s :: next :: rest) metadata ≠ .err msg v := by
  have hr := isRootPath_two pre s next rest
  have h : storeMetadataByPath value (pre ++ s :: next :: rest) metadata = .panic value := by
    rw [storeMetadataByPath_of_not_root _ _ hr,
      storeLoop_append pre (s :: next :: rest) metadata (by simp) value parent hpre,
      storeLoop_cons_conflict parent s next rest metadata c hc hnull hobj]
    simp [Outcome.mapValue, putPath_self pre value parent hpre]
  exact ⟨h, fun msg v => by rw [h]; simp⟩

theorem storeMetadataByPath_conflict_panics_witness :
    getPath (.obj [("a", .str "x")]) [] = some (.obj [("a", .str "x")]) ∧
    mapGet [("a", .str "x")] "a" = some (.str "x") ∧
    stringsSplit "a.b" = ["a", "b"] ∧
    (storeMetadataByPath [("a", .str "x")] ["a", "b"] (.obj []) = .panic [("a", .str "x")] ∧
      ∀ msg v, storeMetadataByPath [("a", .str "x")] ["a", "b"] (.obj []) ≠ .err msg v) ∧
    (putMessageMetadataTx noFaults 0
        { rows := [{ SessionID := "s", UUID := "m1", Metadata := some [("a", .str "x")] }],
          log := [] }
        "s" { UUID := "m1", Key := "a.b", Metadata := [] }).1 = .panic :=
  ⟨rfl, rfl, rfl,
    storeMetadataByPath_conflict_panics [("a", .str "x")] [("a", .str "x")] [] "a" "b" []
      (.obj []) (.str "x") rfl rfl (by simp) (by simp),
    rfl⟩

/-- C9 (type mismatch).  On a root key path (`[]` or `[""]`) the call returns
an error exactly when the incoming value is not an object; on any other key
path it never returns an error, whatever the incoming value is. -/
theorem storeMetadataByPath_type_mismatch (value : JObject) (keyPath : List String)
    (metadata : JValue) :
    ((keyPath = [] ∨ keyPath = [""]) →
      ((∃ msg v, storeMetadataByPath value keyPath metadata = .err msg v) ↔
        ∀ metadataMap, metadata ≠ .obj metadataMap)) ∧
    (¬ (keyPath = [] ∨ keyPath = [""]) →
      ∀ msg v, storeMetadataByPath value keyPath metadata ≠ .err msg v) := by
  constructor
  · intro hroot
    have hr := (isRootPath_iff keyPath).mpr hroot
    cases metadata <;> simp [storeMetadataByPath, hr]
  · intro hroot msg v
    have hr : isRootPath keyPath = false := by
      cases h : isRootPath keyPath with
      | false => rfl
      | true => exact absurd ((isRootPath_iff keyPath).mp h) hroot
    rw [storeMetadataByPath_of_not_root _ _ hr]
    exact storeLoop_ne_err metadata keyPath value msg v

theorem storeMetadataByPath_type_mismatch_witness :
    (∃ msg v, storeMetadataByPath [("a", .num 0)] [""] (.str "x") = .err msg v) ∧
    storeMetadataByPath [("a", .num 0)] [""] (.str "x") = .err errNotMap [("a", .num 0)] ∧
    (∀ msg v, storeMetadataByPath [("a", .num 0)] ["a"] (.str "x") ≠ .err msg v) ∧
    storeMetadataByPath [("a", .num 0)] ["a"] (.str "x") = .ok [("a", .str "x")] :=
  ⟨((storeMetadataByPath_type_mismatch [("a", .num 0)] [""] (.str "x")).1 (Or.inr rfl)).mpr
      (by simp),
    rfl,
    (storeMetadataByPath_type_mismatch [("a", .num 0)] ["a"] (.str "x")).2 (by simp),
    rfl⟩

/-- C10 (atomicity law).  The call is given a plain database handle (no open
transaction) and the begin succeeds.  When the items `done` of the filtered
batch have all been applied and the next one, `failing`, does not return nil,
the call does not return nil either: it returns the item's error wrapped (and
passes a panic on), the committed rows are those from before the call, the
transaction is gone, and what the call sent is a begin, statements of the
items, and a rollback at the end: nothing was committed. -/
theorem putMessageMetadata_atomic (faults : Faults) (rows : List PgMessageStore)
    (log : List Event) (sessionID : String) (items : List MessageMetadata)
    (isPrivileged : Bool) (done later : List MessageMetadata) (failing : MessageMetadata)
    (tx tx' : Tx) (ret : Ret)
    (hbegin : faults.beginTx = false)
    (hbatch : (if !isPrivileged then removeSystemMetadata items else items) =
      done ++ failing :: later)
    (hdone : putLoop faults sessionID 0 { rows := rows, log := log ++ [.begin] } done =
      (.nil, tx))
    (hfail : putMessageMetadataTx faults done.length tx sessionID failing = (ret, tx'))
    (hret : ret ≠ .nil) :
    (∀ e, ret = .error e →
      (putMessageMetadata faults { committed := rows, pending := none, log := log }
          sessionID items isPrivileged).1 =
        .error (NewStorageError "failed to put message metadata" e)) ∧
    (putMessageMetadata faults { committed := rows, pending := none, log := log }
        sessionID items isPrivileged).1 ≠ .nil ∧
    (putMessageMetadata faults { committed := rows, pending := none, log := log }
        sessionID items isPrivileged).2.committed = rows ∧
    (putMessageMetadata faults { committed := rows, pending := none, log := log }
        sessionID items isPrivileged).2.pending = none ∧
    ∃ evs,
      (putMessageMetadata faults { committed := rows, pending := none, log := log }
        sessionID items isPrivileged).2.log = log ++ [.begin] ++ evs ++ [.rollback] ∧
      ∀ ev ∈ evs, Event.isItemStatement ev = true := by
  obtain ⟨evs, hlog, hevs⟩ := putLoop_log faults sessionID (done ++ failing :: later) 0
    { rows := rows, log := log ++ [.begin] }
  have hstep : putLoop faults sessionID 0 { rows := rows, log := log ++ [.begin] }
      (done ++ failing :: later) =
      putLoop faults sessionID done.length tx (failing :: later) := by
    rw [putLoop_append faults sessionID done (failing :: later) 0 _ tx hdone, Nat.zero_add]
  cases ret with
  | nil => exact absurd rfl hret
  | error e =>
      have hloop : putLoop faults sessionID 0 { rows := rows, log := log ++ [.begin] }
          (done ++ failing :: later) =
          (.error (NewStorageError "failed to put message metadata" e), tx') := by
        rw [hstep, putLoop_cons]
        simp only [hfail]
      rw [hloop] at hlog
      simp only at hlog
      simp only [putMessageMetadata, hbatch, runBatch, hbegin, hloop, rollbackOnError]
      refine ⟨by simp, by simp, by simp, by simp, evs, ?_, hevs⟩
      simp [hlog]
  | panic =>
      have hloop : putLoop faults sessionID 0 { rows := rows, log := log ++ [.begin] }
          (done ++ failing :: later) = (.panic, tx') := by
        rw [hstep, putLoop_cons]
        simp only [hfail]
      rw [hloop] at hlog
      simp only at hlog
      simp only [putMessageMetadata, hbatch, runBatch, hbegin, hloop, rollbackOnError]
      refine ⟨by simp, by simp, by simp, by simp, evs, ?_, hevs⟩
      simp [hlog]

theorem putMessageMetadata_atomic_witness :
    putLoop noFaults "s" 0 { rows := exampleRows, log := [.begin] } [exampleFirst] =
      (.nil,
        { rows := [{ SessionID := "s", UUID := "m1",
                     Metadata := some [("a", .num 0), ("tags", .obj [("x", .num 1)])] }],
          log := [.begin, .lock "sm1", .select "s" "m1", .update "s" "m1"] }) ∧
    (putMessageMetadata noFaults { committed := exampleRows, pending := none, log := [] }
        "s" [exampleFirst, exampleMissing] false).1 =
      .error (NewStorageError "failed to put message metadata"
        (NewStorageError "failed to retrieve existing metadata. was the session deleted?"
          .noRows)) ∧
    (putMessageMetadata noFaults { committed := exampleRows, pending := none, log := [] }
        "s" [exampleFirst, exampleMissing] false).2.committed = exampleRows ∧
    (putMessageMetadata noFaults { committed := exampleRows, pending := none, log := [] }
        "s" [exampleFirst, exampleMissing] false).2.pending = none ∧
    (putMessageMetadata noFaults { committed := exampleRows, pending := none, log := [] }
        "s" [exampleFirst, exampleMissing] false).2.log =
      [.begin, .lock "sm1", .select "s" "m1", .update "s" "m1",
        .lock "sm2", .select "s" "m2", .rollback] :=
  have h := putMessageMetadata_atomic noFaults exampleRows [] "s"
    [exampleFirst, exampleMissing] false [exampleFirst] [] exampleMissing
    { rows := [{ SessionID := "s", UUID := "m1",
                 Metadata := some [("a", .num 0), ("tags", .obj [("x", .num 1)])] }],
      log := [.begin, .lock "sm1", .select "s" "m1", .update "s" "m1"] }
    { rows := [{ SessionID := "s", UUID := "m1",
                 Metadata := some [("a", .num 0), ("tags", .obj [("x", .num 1)])] }],
      log := [.begin, .lock "sm1", .select "s" "m1", .update "s" "m1",
              .lock "sm2", .select "s" "m2"] }
    (.error (NewStorageError
      "failed to retrieve existing metadata. was the session deleted?" .noRows))
    rfl rfl rfl rfl (by simp)
  ⟨rfl, h.1 _ rfl, h.2.2.1, h.2.2.2.1, rfl⟩

/-- C11 (sequential application).  For the loop of lines 43-49 started on the
transaction `t0`:

* when the items `done` have returned nil and the next item does not, the loop
  ends with the transaction as that item left it, and gives what it gives when
  the batch ends with that item: the later items send nothing and change
  nothing;
* when the loop returns nil, the statements sent are lock, select, update of
  each item in input order, and the document of every target is the result of
  merging that target's items into it one after the other in input order;
* the last item merged leaves its entries at the place its key addresses,
  whatever the items before it wrote there: the later writer wins. -/
theorem putLoop_sequential (faults : Faults) (sessionID : String) (t0 : Tx) :
    (∀ (done later : List MessageMetadata) (failing : MessageMetadata) (tx tx' : Tx)
        (ret : Ret),
      putLoop faults sessionID 0 t0 done = (.nil, tx) →
      putMessageMetadataTx faults done.length tx sessionID failing = (ret, tx') →
      ret ≠ .nil →
      (putLoop faults sessionID 0 t0 (done ++ failing :: later)).2 = tx' ∧
      putLoop faults sessionID 0 t0 (done ++ failing :: later) =
        putLoop faults sessionID 0 t0 (done ++ [failing])) ∧
    (∀ (items : List MessageMetadata) (t1 : Tx),
      putLoop faults sessionID 0 t0 items = (.nil, t1) →
      t1.log = t0.log ++ (items.map (itemStatements sessionID)).flatten ∧
      ∀ uuid d, docOf t0.rows sessionID uuid = some d →
        ∃ d', mergeItems d (itemsFor uuid items) = .ok d' ∧
          docOf t1.rows sessionID uuid = some d') ∧
    (∀ (d d2 : JObject) (before : List MessageMetadata) (m : MessageMetadata),
      KeysNodup m.Metadata →
      mergeItems d (before ++ [m]) = .ok d2 →
      ∃ r, objectAt d2 (stringsSplit m.Key) = some (.obj r) ∧
        ∀ k ∈ mapKeys m.Metadata, mapGet r k = mapGet m.Metadata k) := by
  refine ⟨?_, ?_, ?_⟩
  · intro done later failing tx tx' ret hdone hfail hret
    cases ret with
    | nil => exact absurd rfl hret
    | error e =>
        have hstep : ∀ rest, putLoop faults sessionID 0 t0 (done ++ failing :: rest) =
            (.error (NewStorageError "failed to put message metadata" e), tx') := by
          intro rest
          rw [putLoop_append faults sessionID done (failing :: rest) 0 t0 tx hdone,
            putLoop_cons, Nat.zero_add]
          simp only [hfail]
        exact ⟨by rw [hstep later], by rw [hstep later, hstep []]⟩
    | panic =>
        have hstep : ∀ rest, putLoop faults sessionID 0 t0 (done ++ failing :: rest) =
            (.panic, tx') := by
          intro rest
          rw [putLoop_append faults sessionID done (failing :: rest) 0 t0 tx hdone,
            putLoop_cons, Nat.zero_add]
          simp only [hfail]
        exact ⟨by rw [hstep later], by rw [hstep later, hstep []]⟩
  · intro items t1 h
    exact putLoop_nil faults sessionID items 0 t0 t1 h
  · intro d d2 before m hm h
    obtain ⟨mid, _, h2⟩ := mergeItems_append_singleton before h
    exact mergeItem_ok_entries hm h2

theorem putLoop_sequential_witness :
    putLoop noFaults "s" 0 { rows := exampleRows, log := [] }
        [exampleFirst, { UUID := "m1", Key := "tags", Metadata := [("x", .num 2)] }] =
      (.nil,
        { rows := [{ SessionID := "s", UUID := "m1",
                     Metadata := some [("a", .num 0), ("tags", .obj [("x", .num 2)])] }],
          log := [.lock "sm1", .select "s" "m1", .update "s" "m1",
                  .lock "sm1", .select "s" "m1", .update "s" "m1"] }) ∧
    (∃ d', mergeItems [("a", .num 0)]
          (itemsFor "m1"
            [exampleFirst, { UUID := "m1", Key := "tags", Metadata := [("x", .num 2)] }]) =
          .ok d' ∧
        docOf [{ SessionID := "s", UUID := "m1",
                 Metadata := some [("a", .num 0), ("tags", .obj [("x", .num 2)])] }]
          "s" "m1" = some d') ∧
    (putLoop noFaults "s" 0 { rows := exampleRows, log := [] }
        ([exampleFirst] ++ exampleMissing :: [exampleFirst])).2 =
      { rows := [{ SessionID := "s", UUID := "m1",
                   Metadata := some [("a", .num 0), ("tags", .obj [("x", .num 1)])] }],
        log := [.lock "sm1", .select "s" "m1", .update "s" "m1",
                .lock "sm2", .select "s" "m2"] } :=
  ⟨rfl,
    ((putLoop_sequential noFaults "s" { rows := exampleRows, log := [] }).2.1
      [exampleFirst, { UUID := "m1", Key := "tags", Metadata := [("x", .num 2)] }]
      { rows := [{ SessionID := "s", UUID := "m1",
                   Metadata := some [("a", .num 0), ("tags", .obj [("x", .num 2)])] }],
        log := [.lock "sm1", .select "s" "m1", .update "s" "m1",
                .lock "sm1", .select "s" "m1", .update "s" "m1"] }
      rfl).2 "m1" [("a", .num 0)] rfl,
    ((putLoop_sequential noFaults "s" { rows := exampleRows, log := [] }).1
      [exampleFirst] [exampleFirst] exampleMissing
      { rows := [{ SessionID := "s", UUID := "m1",
                   Metadata := some [("a", .num 0), ("tags", .obj [("x", .num 1)])] }],
        log := [.lock "sm1", .select "s" "m1", .update "s" "m1"] }
      { rows := [{ SessionID := "s", UUID := "m1",
                   Metadata := some [("a", .num 0), ("tags", .obj [("x", .num 1)])] }],
        log := [.lock "sm1", .select "s" "m1", .update "s" "m1",
                .lock "sm2", .select "s" "m2"] }
      (.error (NewStorageError
        "failed to retrieve existing metadata. was the session deleted?" .noRows))
      rfl rfl (by simp)).1⟩

/-- C12 (privilege law).  An unprivileged batch in which every key is `system`
or starts with `system.` (the empty batch included) is filtered down to
nothing.  On a plain database handle, with begin and commit succeeding, the
call returns nil, the committed rows are unchanged and the only statements sent
are the begin and the commit; inside a caller's transaction the call returns
nil and leaves the store, log included, as it was.  No lock, select or update
is sent, whether the targets have rows or not. -/
theorem putMessageMetadata_privilege_law (faults : Faults) (db : Store) (sessionID : String)
    (items : List MessageMetadata)
    (hkeys : ∀ m ∈ items, m.Key = "system" ∨ "system.".data <+: m.Key.data) :
    removeSystemMetadata items = [] ∧
    (db.pending = none → faults.beginTx = false → faults.commit = false →
      putMessageMetadata faults db sessionID items false =
        (.nil, { committed := db.committed, pending := none,
                 log := db.log ++ [.begin, .commit] })) ∧
    (∀ rows, db.pending = some rows →
      putMessageMetadata faults db sessionID items false = (.nil, db)) := by
  have hnil := removeSystemMetadata_reserved items hkeys
  refine ⟨hnil, ?_, ?_⟩
  · intro hp hb hc
    simp [putMessageMetadata, hnil, runBatch, hp, hb, hc, putLoop, rollbackOnError]
  · intro rows hp
    obtain ⟨committed, pending, log⟩ := db
    simp only at hp
    subst hp
    simp [putMessageMetadata, hnil, runBatch, putLoop]

theorem putMessageMetadata_privilege_law_witness :
    putMessageMetadata noFaults { committed := exampleRows, pending := none, log := [] } "s"
        [{ UUID := "m2", Key := "system.flag", Metadata := [("flag", .bool true)] }] false =
      (.nil, { committed := exampleRows, pending := none, log := [.begin, .commit] }) ∧
    selectRow exampleRows "s" "m2" = none :=
  ⟨(putMessageMetadata_privilege_law noFaults
      { committed := exampleRows, pending := none, log := [] } "s"
      [{ UUID := "m2", Key := "system.flag", Metadata := [("flag", .bool true)] }]
      (fun m hm => by
        rw [List.mem_singleton.mp hm]
        exact Or.inr ⟨['f', 'l', 'a', 'g'], rfl⟩)).2.1 rfl rfl rfl,
    rfl⟩

/-- C13 (target not found).  When the transaction sees no row for
`(sessionID, uuid)` of the item, `putMessageMetadataTx` returns an error (the
wrapped `sql.ErrNoRows` when lock and select go through), the rows are as they
were, there is still no row for the target, and the only statements sent are
the lock and the select: no update. -/
theorem putMessageMetadataTx_target_not_found (faults : Faults) (i : Nat) (tx : Tx)
    (sessionID : String) (m : MessageMetadata)
    (hmissing : selectRow tx.rows sessionID m.UUID = none) :
    (∃ e, (putMessageMetadataTx faults i tx sessionID m).1 = .error e) ∧
    (faults.lock i = false → faults.select i = false →
      (putMessageMetadataTx faults i tx sessionID m).1 =
        .error (NewStorageError
          "failed to retrieve existing metadata. was the session deleted?" .noRows)) ∧
    (putMessageMetadataTx faults i tx sessionID m).2.rows = tx.rows ∧
    selectRow (putMessageMetadataTx faults i tx sessionID m).2.rows sessionID m.UUID = none ∧
    ∃ evs, (putMessageMetadataTx faults i tx sessionID m).2.log = tx.log ++ evs ∧
      ∀ ev ∈ evs, ev = .lock (sessionID ++ m.UUID) ∨ ev = .select sessionID m.UUID := by
  cases hl : faults.lock i with
  | true =>
      have hres : putMessageMetadataTx faults i tx sessionID m =
          (.error (NewStorageError "failed to acquire advisory lock" .driver),
            { rows := tx.rows, log := tx.log ++ [.lock (sessionID ++ m.UUID)] }) := by
        simp [putMessageMetadataTx, Tx.logged, hl]
      rw [hres]
      exact ⟨⟨_, rfl⟩, by simp, rfl, hmissing, [.lock (sessionID ++ m.UUID)], rfl, by simp⟩
  | false =>
      cases hs : faults.select i with
      | true =>
          have hres : putMessageMetadataTx faults i tx sessionID m =
              (.error (NewStorageError
                "failed to retrieve existing metadata. was the session deleted?" .driver),
                { rows := tx.rows,
                  log := tx.log ++ [.lock (sessionID ++ m.UUID), .select sessionID m.UUID] }) := by
            simp [putMessageMetadataTx, Tx.logged, hl, hs]
          rw [hres]
          exact ⟨⟨_, rfl⟩, by simp, rfl, hmissing,
            [.lock (sessionID ++ m.UUID), .select sessionID m.UUID], rfl, by simp⟩
      | false =>
          have hres : putMessageMetadataTx faults i tx sessionID m =
              (.error (NewStorageError
                "failed to retrieve existing metadata. was the session deleted?" .noRows),
                { rows := tx.rows,
                  log := tx.log ++ [.lock (sessionID ++ m.UUID), .select sessionID m.UUID] }) := by
            simp [putMessageMetadataTx, Tx.logged, hl, hs, hmissing]
          rw [hres]
          exact ⟨⟨_, rfl⟩, by simp, rfl, hmissing,
            [.lock (sessionID ++ m.UUID), .select sessionID m.UUID], rfl, by simp⟩

theorem putMessageMetadataTx_target_not_found_witness :
    putMessageMetadataTx noFaults 0 { rows := exampleRows, log := [] } "s" exampleMissing =
      (.error (NewStorageError
          "failed to retrieve existing metadata. was the session deleted?" .noRows),
        { rows := exampleRows, log := [.lock "sm2", .select "s" "m2"] }) ∧
    selectRow (putMessageMetadataTx noFaults 0 { rows := exampleRows, log := [] } "s"
      exampleMissing).2.rows "s" exampleMissing.UUID = none :=
  ⟨rfl,
    (putMessageMetadataTx_target_not_found noFaults 0 { rows := exampleRows, log := [] } "s"
      exampleMissing rfl).2.2.2.1⟩

/-- C14 (borrowed transaction).  `batch` is the batch after the filter of lines
29-32.  When `db` is a caller's transaction, the call leaves the committed rows
alone, the transaction is still open afterwards, and everything the call sent
is a lock, select or update of an item: no commit and no rollback, whatever
the outcome.  When `db` is a plain handle and the begin succeeds, the call has
sent the begin and the statements of the items, and then: if the loop returned
nil it sends the commit (on success the committed rows become those of the
transaction, on a failed commit the deferred rollback follows); if the loop
did not return nil it sends the rollback and no commit. -/
theorem putMessageMetadata_transaction_ownership (faults : Faults) (db : Store)
    (sessionID : String) (items batch : List MessageMetadata) (isPrivileged : Bool)
    (hbatch : batch = if !isPrivileged then removeSystemMetadata items else items) :
    (∀ rows, db.pending = some rows →
      (putMessageMetadata faults db sessionID items isPrivileged).2.committed = db.committed ∧
      (∃ rows', (putMessageMetadata faults db sessionID items isPrivileged).2.pending =
        some rows') ∧
      ∃ evs, (putMessageMetadata faults db sessionID items isPrivileged).2.log = db.log ++ evs ∧
        ∀ ev ∈ evs, Event.isItemStatement ev = true) ∧
    (db.pending = none → faults.beginTx = false →
      ∀ (ret : Ret) (tx : Tx),
        putLoop faults sessionID 0 { rows := db.committed, log := db.log ++ [.begin] } batch =
          (ret, tx) →
        (∃ evs, tx.log = db.log ++ [.begin] ++ evs ∧
          ∀ ev ∈ evs, Event.isItemStatement ev = true) ∧
        (ret = .nil → faults.commit = false →
          putMessageMetadata faults db sessionID items isPrivileged =
            (.nil, { committed := tx.rows, pending := none, log := tx.log ++ [.commit] })) ∧
        (ret = .nil → faults.commit = true →
          putMessageMetadata faults db sessionID items isPrivileged =
            (.error (NewStorageError "failed to commit transaction" .driver),
              { committed := db.committed, pending := none,
                log := tx.log ++ [.commit, .rollback] })) ∧
        (ret ≠ .nil →
          putMessageMetadata faults db sessionID items isPrivileged =
            (ret, { committed := db.committed, pending := none,
                    log := tx.log ++ [.rollback] }))) := by
  subst hbatch
  constructor
  · intro rows hp
    obtain ⟨evs, hlog, hevs⟩ := putLoop_log faults sessionID
      (if !isPrivileged then removeSystemMetadata items else items) 0
      { rows := rows, log := db.log }
    have hrun : putMessageMetadata faults db sessionID items isPrivileged =
        ((putLoop faults sessionID 0 { rows := rows, log := db.log }
            (if !isPrivileged then removeSystemMetadata items else items)).1,
          { committed := db.committed,
            pending := some (putLoop faults sessionID 0 { rows := rows, log := db.log }
              (if !isPrivileged then removeSystemMetadata items else items)).2.rows,
            log := (putLoop faults sessionID 0 { rows := rows, log := db.log }
              (if !isPrivileged then removeSystemMetadata items else items)).2.log }) := by
      simp only [putMessageMetadata, runBatch, hp]
    rw [hrun]
    exact ⟨rfl, ⟨_, rfl⟩, evs, hlog, hevs⟩
  · intro hp hb ret tx hloop
    obtain ⟨evs, hlog, hevs⟩ := putLoop_log faults sessionID
      (if !isPrivileged then removeSystemMetadata items else items) 0
      { rows := db.committed, log := db.log ++ [.begin] }
    rw [hloop] at hlog
    refine ⟨⟨evs, hlog, hevs⟩, ?_, ?_, ?_⟩
    · intro hret hc
      subst hret
      simp only [putMessageMetadata, runBatch, hp, hb, hloop]
      simp [rollbackOnError, hc]
    · intro hret hc
      subst hret
      simp only [putMessageMetadata, runBatch, hp, hb, hloop]
      simp [rollbackOnError, hc]
    · intro hret
      cases ret with
      | nil => exact absurd rfl hret
      | error e =>
          simp only [putMessageMetadata, runBatch, hp, hb, hloop]
          simp [rollbackOnError]
      | panic =>
          simp only [putMessageMetadata, runBatch, hp, hb, hloop]
          simp [rollbackOnError]

theorem putMessageMetadata_transaction_ownership_witness :
    putMessageMetadata noFaults
        { committed := exampleRows, pending := some exampleRows, log := [.begin] } "s"
        [exampleFirst, exampleMissing] false =
      (.error (NewStorageError "failed to put message metadata"
          (NewStorageError "failed to retrieve existing metadata. was the session deleted?"
            .noRows)),
        { committed := exampleRows,
          pending := some [{ SessionID := "s", UUID := "m1",
                             Metadata := some [("a", .num 0), ("tags", .obj [("x", .num 1)])] }],
          log := [.begin, .lock "sm1", .select "s" "m1", .update "s" "m1",
                  .lock "sm2", .select "s" "m2"] }) ∧
    (∃ evs, (putMessageMetadata noFaults
        { committed := exampleRows, pending := some exampleRows, log := [.begin] } "s"
        [exampleFirst, exampleMissing] false).2.log = [.begin] ++ evs ∧
      ∀ ev ∈ evs, Event.isItemStatement ev = true) ∧
    putMessageMetadata noFaults { committed := exampleRows, pending := none, log := [] } "s"
        [exampleFirst] false =
      (.nil,
        { committed := [{ SessionID := "s", UUID := "m1",
                          Metadata := some [("a", .num 0), ("tags", .obj [("x", .num 1)])] }],
          pending := none,
          log := [.begin, .lock "sm1", .select "s" "m1", .update "s" "m1", .commit] }) :=
  ⟨rfl,
    ((putMessageMetadata_transaction_ownership noFaults
      { committed := exampleRows, pending := some exampleRows, log := [.begin] } "s"
      [exampleFirst, exampleMissing] [exampleFirst, exampleMissing] false rfl).1
        exampleRows rfl).2.2,
    ((putMessageMetadata_transaction_ownership noFaults
      { committed := exampleRows, pending := none, log := [] } "s"
      [exampleFirst] [exampleFirst] false rfl).2 rfl rfl .nil
        { rows := [{ SessionID := "s", UUID := "m1",
                     Metadata := some [("a", .num 0), ("tags", .obj [("x", .num 1)])] }],
          log := [.begin, .lock "sm1", .select "s" "m1", .update "s" "m1"] }
        rfl).2.1 rfl rfl⟩

/-- C15 (idempotence at a stable path).  Whenever the call returns nil on a
document, key path and value (an incoming object having pairwise distinct
keys, as every Go map has), the same call on the resulting document returns
nil and leaves that document as it is. -/
theorem storeMetadataByPath_idempotent (value value' : JObject) (keyPath : List String)
    (metadata : JValue)
    (hmeta : ∀ m, metadata = .obj m → KeysNodup m)
    (hok : storeMetadataByPath value keyPath metadata = .ok value') :
    storeMetadataByPath value' keyPath metadata = .ok value' := by
  unfold storeMetadataByPath at hok ⊢
  cases hr : isRootPath keyPath with
  | true =>
      simp only [hr, if_true] at hok ⊢
      cases metadata with
      | obj m =>
          simp only [Outcome.ok.injEq] at hok
          subst hok
          show Outcome.ok (assignAll (assignAll value m) m) = Outcome.ok (assignAll value m)
          rw [assignAll_assignAll value m (hmeta m rfl)]
      | null => simp at hok
      | bool b => simp at hok
      | num n => simp at hok
      | str s => simp at hok
      | arr xs => simp at hok
  | false =>
      simp only [hr, Bool.false_eq_true, if_false] at hok ⊢
      exact storeLoop_idem metadata hmeta keyPath value value' hok

theorem storeMetadataByPath_idempotent_witness :
    storeMetadataByPath [("tags", .obj [("x", .num 1)])] ["tags"] (.obj [("y", .num 2)]) =
      .ok [("tags", .obj [("x", .num 1), ("y", .num 2)])] ∧
    storeMetadataByPath [("tags", .obj [("x", .num 1), ("y", .num 2)])] ["tags"]
        (.obj [("y", .num 2)]) =
      .ok [("tags", .obj [("x", .num 1), ("y", .num 2)])] :=
  ⟨rfl,
    storeMetadataByPath_idempotent [("tags", .obj [("x", .num 1)])]
      [("tags", .obj [("x", .num 1), ("y", .num 2)])] ["tags"] (.obj [("y", .num 2)])
      (fun m h => by
        injection h with h
        subst h
        simp [KeysNodup, mapKeys])
      rfl⟩

/-- C17, as stated, fails: from a root-level item (key `""`) whose value holds a
`system` key, `removeSystemMetadata` deletes that key; the item does not come
back as it went in. -/
theorem root_item_system_key_not_kept :
    removeSystemMetadata
        [{ UUID := "m1", Key := "", Metadata := [("system", .obj [("flag", .bool true)]),
                                                  ("a", .num 1)] }] =
      [{ UUID := "m1", Key := "", Metadata := [("a", .num 1)] }] ∧
    removeSystemMetadata
        [{ UUID := "m1", Key := "", Metadata := [("system", .obj [("flag", .bool true)]),
                                                  ("a", .num 1)] }] ≠
      [{ UUID := "m1", Key := "", Metadata := [("system", .obj [("flag", .bool true)]),
                                                ("a", .num 1)] }] := by
  refine ⟨rfl, ?_⟩
  intro h
  have hlen := congrArg (fun l => l.map (fun m => m.Metadata.length)) h
  exact absurd hlen (by decide)

/-- C17 (amended: no asymmetry).  Every item that `removeSystemMetadata` lets
through has no top-level `system` key in its value, and a root-level item (key
`""`) comes back with `system` deleted from its value like any other. -/
theorem removeSystemMetadata_strips_every_item (items : List MessageMetadata)
    (m : MessageMetadata) (hm : m ∈ removeSystemMetadata items) :
    mapGet m.Metadata "system" = none ∧
    ∀ (uuid : String) (value : JObject),
      removeSystemMetadata [{ UUID := uuid, Key := "", Metadata := value }] =
        [{ UUID := uuid, Key := "", Metadata := mapDelete value "system" }] := by
  refine ⟨(mapGet_eq_none_iff _ _).mpr (mem_removeSystemMetadata hm).2, ?_⟩
  intro uuid value
  rfl

theorem removeSystemMetadata_strips_every_item_witness :
    mapGet ([("a", .num 1)] : JObject) "system" = none ∧
    ∀ (uuid : String) (value : JObject),
      removeSystemMetadata [{ UUID := uuid, Key := "", Metadata := value }] =
        [{ UUID := uuid, Key := "", Metadata := mapDelete value "system" }] :=
  removeSystemMetadata_strips_every_item
    [{ UUID := "m1", Key := "", Metadata := [("system", .obj [("flag", .bool true)]),
                                              ("a", .num 1)] }]
    { UUID := "m1", Key := "", Metadata := [("a", .num 1)] }
    (by
      have h : removeSystemMetadata
          [{ UUID := "m1", Key := "", Metadata := [("system", .obj [("flag", .bool true)]),
                                                    ("a", .num 1)] }] =
          [{ UUID := "m1", Key := "", Metadata := [("a", .num 1)] }] := rfl
      rw [h]
      exact List.mem_singleton.mpr rfl)

/-- C18 (failure atomicity).  Whatever the document, key path and value, a
call that does not return nil (the error of a root merge with a non-object
value, the panic at a non-terminal segment that holds neither nil nor a map)
leaves the map exactly as it was given. -/
theorem storeMetadataByPath_failure_leaves_document (value : JObject)
    (keyPath : List String) (metadata : JValue)
    (hfail : ∀ value', storeMetadataByPath value keyPath metadata ≠ .ok value') :
    (storeMetadataByPath value keyPath metadata).value = value := by
  cases ho : storeMetadataByPath value keyPath metadata with
  | ok w => exact absurd ho (hfail w)
  | err msg w =>
      unfold storeMetadataByPath at ho
      cases hr : isRootPath keyPath with
      | true =>
          simp only [hr, if_true] at ho
          cases metadata <;> simp at ho <;> simp [Outcome.value, ho.2]
      | false =>
          simp only [hr, Bool.false_eq_true, if_false] at ho
          exact absurd ho (storeLoop_ne_err metadata keyPath value msg w)
  | panic w =>
      unfold storeMetadataByPath at ho
      cases hr : isRootPath keyPath with
      | true =>
          simp only [hr, if_true] at ho
          cases metadata <;> simp at ho
      | false =>
          simp only [hr, Bool.false_eq_true, if_false] at ho
          simp [Outcome.value, storeLoop_panic_value metadata keyPath value w ho]

theorem storeMetadataByPath_failure_leaves_document_witness :
    (storeMetadataByPath [("a", .obj [("b", .str "x")]), ("k", .null)] ["a", "b", "c"]
        (.num 1)).value = [("a", .obj [("b", .str "x")]), ("k", .null)] ∧
    storeMetadataByPath [("a", .obj [("b", .str "x")]), ("k", .null)] ["a", "b", "c"]
        (.num 1) = .panic [("a", .obj [("b", .str "x")]), ("k", .null)] :=
  ⟨storeMetadataByPath_failure_leaves_document
      [("a", .obj [("b", .str "x")]), ("k", .null)] ["a", "b", "c"] (.num 1)
      (fun value' h => by cases h),
    rfl⟩

/-- C19 (frame of a non-root merge).  When the call returns nil on a non-root
key path, then at every object of the input that lies along the path (the top
level for `pre = []`), with `s` the next segment of the path there, the result
holds an object at the same place in which every key other than `s` has the
value it had, and which has, `s` apart, the same keys. -/
theorem storeMetadataByPath_frame (value value' : JObject) (pre : List String) (s : String)
    (rest : List String) (metadata : JValue) (along : JObject)
    (hroot : isRootPath (pre ++ s :: rest) = false)
    (hok : storeMetadataByPath value (pre ++ s :: rest) metadata = .ok value')
    (hpre : getPath (.obj value) pre = some (.obj along)) :
    ∃ along', getPath (.obj value') pre = some (.obj along') ∧
      (∀ k, k ≠ s → mapGet along' k = mapGet along k) ∧
      (∀ k, k ≠ s → (k ∈ mapKeys along' ↔ k ∈ mapKeys along)) := by
  rw [storeMetadataByPath_of_not_root _ _ hroot,
    storeLoop_append pre (s :: rest) metadata (by simp) value along hpre] at hok
  obtain ⟨w, hw, hv⟩ := Outcome.mapValue_eq_ok hok
  have hframe : ∀ k, k ≠ s → mapGet w k = mapGet along k := by
    intro k hk
    have := storeLoop_frame_top along s rest metadata hk
    rwa [hw] at this
  refine ⟨w, ?_, hframe, ?_⟩
  · rw [hv]
    exact getPath_putPath pre w value along hpre
  · intro k hk
    have h1 := mapGet_eq_none_iff w k
    have h2 := mapGet_eq_none_iff along k
    rw [hframe k hk] at h1
    constructor
    · intro hin
      by_contra hnot
      exact (h1.mp (h2.mpr hnot)) hin
    · intro hin
      by_contra hnot
      exact (h2.mp (h1.mpr hnot)) hin

theorem storeMetadataByPath_frame_witness :
    storeMetadataByPath [("a", .obj [("b", .num 1), ("c", .num 2)]), ("z", .num 3)]
        ["a", "b"] (.num 9) =
      .ok [("a", .obj [("b", .num 9), ("c", .num 2)]), ("z", .num 3)] ∧
    ∃ along',
      getPath (.obj [("a", .obj [("b", .num 9), ("c", .num 2)]), ("z", .num 3)]) ["a"] =
        some (.obj along') ∧
      (∀ k, k ≠ "b" → mapGet along' k = mapGet [("b", .num 1), ("c", .num 2)] k) ∧
      (∀ k, k ≠ "b" → (k ∈ mapKeys along' ↔ k ∈ mapKeys [("b", JValue.num 1), ("c", .num 2)])) :=
  ⟨rfl,
    storeMetadataByPath_frame [("a", .obj [("b", .num 1), ("c", .num 2)]), ("z", .num 3)]
      [("a", .obj [("b", .num 9), ("c", .num 2)]), ("z", .num 3)] ["a"] "b" [] (.num 9)
      [("b", .num 1), ("c", .num 2)] rfl rfl rfl⟩

end Zep
